import Mathlib

/-!
# Verification of the proton-beam ingestion pipeline

A shallow embedding, in Lean 4, of the parts of the `proton-beam`
repository (crates `proton-beam-core` and `proton-beam-cli`) that its
specification makes claims about:

* the canonical event hash (`proton-beam-core/src/validation.rs`),
* the length-delimited protobuf codec (`proton-beam-core/src/storage.rs`);
  the protobuf message schema itself (`proto/nostr.proto`, compiled by
  `build.rs`) is not part of the source tree, so the wire encoding of the
  `ProtoEvent` message is modelled from the spec's description of the
  binary artifact format (fields in declaration order, standard
  Protocol-Buffers wire encoding),
* the chunk scheduler (`find_chunk_boundaries` in
  `proton-beam-cli/src/main.rs`),
* the date-partitioned storage sink (`proton-beam-cli/src/storage.rs`);
  the timestamp-to-date conversion performed by `chrono` is modelled by an
  executable civil-calendar algorithm together with `chrono`'s documented
  supported range,
* the merge-with-deduplication stage (`merge_protobuf_files_with_dedup`
  and `merge_temp_files` in `proton-beam-cli/src/main.rs`),
* the SQLite event index (`proton-beam-core/src/index.rs`), with the
  `events` table modelled as an association list keyed by event id and
  `INSERT OR IGNORE` as insert-if-absent.

Rust machine integers are modelled as `Nat`/`Int` with explicit `% 2 ^ w`
where overflow matters; Rust `String`s are modelled as their UTF-8 byte
sequences (`List Nat`); fallible operations return `Option`/`Except`.
-/

set_option maxRecDepth 100000

namespace ProtonBeam

/-- One tag: an ordered sequence of strings (each a UTF-8 byte sequence).
Mirrors `Tag { values: Vec<String> }` of the generated protobuf code. -/
structure Tag where
  values : List (List Nat)
deriving DecidableEq, Repr

/-- One event.  Mirrors the prost-generated `ProtoEvent` struct:
`id`, `pubkey`, `content`, `sig` are Rust `String`s (UTF-8 bytes),
`created_at` is `i64`, `kind` is `i32`, `tags` is `Vec<Tag>`. -/
structure ProtoEvent where
  id : List Nat
  pubkey : List Nat
  created_at : Int
  kind : Int
  tags : List Tag
  content : List Nat
  sig : List Nat
deriving DecidableEq, Repr

/-- The prost default message: all fields empty / zero. -/
def ProtoEvent.default : ProtoEvent :=
  { id := [], pubkey := [], created_at := 0, kind := 0,
    tags := [], content := [], sig := [] }

/-- The prost default `Tag` message. -/
def Tag.default : Tag := { values := [] }

/-! ## Base-128 varints

`prost::encoding::encode_varint` (used by `write_event_delimited_with_buf`
in `proton-beam-core/src/storage.rs`) emits the low seven bits of the
value with the continuation bit set while the value is `>= 0x80`,
little-endian group order. -/

/-- LEB128 encoding worker.  `fuel` only forces structural termination;
`encodeVarint` supplies `n + 1`, which always suffices because the value
shrinks by a factor of 128 per emitted byte. -/
def encodeVarintAux : Nat → Nat → List Nat
  | 0, n => [n]
  | fuel + 1, n =>
    if n < 128 then [n]
    else (n % 128 + 128) :: encodeVarintAux fuel (n / 128)

/-- LEB128 encoding of a natural number, least-significant group first. -/
def encodeVarint (n : Nat) : List Nat := encodeVarintAux (n + 1) n

theorem encodeVarintAux_irrel :
    ∀ (f₁ : Nat) (f₂ n : Nat), n < f₁ → n < f₂ →
      encodeVarintAux f₁ n = encodeVarintAux f₂ n := by
  intro f₁
  induction f₁ with
  | zero => omega
  | succ f₁ ih =>
    intro f₂ n h₁ h₂
    cases f₂ with
    | zero => omega
    | succ f₂ =>
      by_cases h : n < 128
      · simp [encodeVarintAux, h]
      · rw [encodeVarintAux, if_neg h, encodeVarintAux, if_neg h,
          ih f₂ (n / 128)
            (by
              have := Nat.div_lt_self (by omega : 0 < n)
                (by norm_num : 1 < 128)
              omega)
            (by
              have := Nat.div_lt_self (by omega : 0 < n)
                (by norm_num : 1 < 128)
              omega)]

/-- The defining recurrence of `encodeVarint`. -/
theorem encodeVarint_eq (n : Nat) :
    encodeVarint n =
      if n < 128 then [n]
      else (n % 128 + 128) :: encodeVarint (n / 128) := by
  by_cases h : n < 128
  · simp [encodeVarint, encodeVarintAux, h]
  · rw [encodeVarint, encodeVarintAux, if_neg h, if_neg h,
      encodeVarintAux_irrel n (n / 128 + 1) (n / 128)
        (Nat.div_lt_self (by omega) (by norm_num))
        (Nat.lt_succ_self _)]
    rfl

/-- Result of `read_varint` in `proton-beam-core/src/storage.rs`:
the stream may end before any byte of the value is complete (`eof`,
surfaced by `read_exact` as `UnexpectedEof`), the accumulated shift may
reach 64 (`tooLarge`, surfaced as an `InvalidData` error, carrying the
not-yet-consumed remainder of the stream), or a value is produced
together with the remaining stream. -/
inductive VarintResult where
  | eof : VarintResult
  | tooLarge : List Nat → VarintResult
  | ok : Nat → List Nat → VarintResult
deriving DecidableEq, Repr

/-- The loop of `read_varint` (`storage.rs` lines 204–233):
`result |= ((byte & 0x7F) as u64) << shift`, stop when the continuation
bit is clear, error once `shift` reaches 64.  Every `read_exact` of one
byte that hits end-of-stream yields `eof`. -/
def readVarintLoop : List Nat → Nat → Nat → VarintResult
  | [], _, _ => .eof
  | b :: rest, shift, acc =>
    let acc' := acc ||| (((b % 128) <<< shift) % 2 ^ 64)
    if b &&& 128 = 0 then .ok acc' rest
    else
      let shift' := shift + 7
      if 64 ≤ shift' then .tooLarge rest
      else readVarintLoop rest shift' acc'

/-- `read_varint` from `proton-beam-core/src/storage.rs`. -/
def readVarint (bytes : List Nat) : VarintResult :=
  readVarintLoop bytes 0 0

/-! ## Protobuf wire encoding of `ProtoEvent`

The schema `proto/nostr.proto` is compiled by `build.rs` but is not part
of the source tree.  Modelled from the spec: "that many bytes of
Protocol-Buffers-encoded Event message"; the message fields are taken in
the declaration order of the generated struct (`id`, `pubkey`,
`created_at`, `kind`, `tags`, `content`, `sig` as field numbers 1–7;
`Tag.values` as field number 1), with standard proto3 encoding rules:
strings and sub-messages are length-delimited (wire type 2), `int64` /
`int32` are varints of the value sign-extended to 64 bits (wire type 0),
scalar fields equal to their default are skipped, repeated fields emit
every element. -/

/-- Two's-complement value of an `i64`-range (or sign-extended
`i32`-range) integer as a `u64`. -/
def toU64 (x : Int) : Nat := (x % (2 ^ 64 : Int)).toNat

/-- Decode a `u64` varint value as an `i64` (prost `int64` semantics). -/
def decodeI64 (u : Nat) : Int :=
  if u < 2 ^ 63 then (u : Int) else (u : Int) - 2 ^ 64

/-- Decode a `u64` varint value as an `i32` (prost `int32` semantics:
truncate to 32 bits, then two's complement). -/
def decodeI32 (u : Nat) : Int :=
  if u % 2 ^ 32 < 2 ^ 31 then ((u % 2 ^ 32 : Nat) : Int)
  else ((u % 2 ^ 32 : Nat) : Int) - 2 ^ 32

/-- A length-delimited (wire type 2) field with the given field number. -/
def encodeLenField (fieldNo : Nat) (payload : List Nat) : List Nat :=
  encodeVarint (fieldNo * 8 + 2) ++ encodeVarint payload.length ++ payload

/-- A string field: skipped when the string is empty (proto3 default). -/
def encodeStringField (fieldNo : Nat) (s : List Nat) : List Nat :=
  if s = [] then [] else encodeLenField fieldNo s

/-- A varint (wire type 0) field holding the `u64` value `v`: skipped
when the value is zero (proto3 default). -/
def encodeIntField (fieldNo : Nat) (v : Nat) : List Nat :=
  if v = 0 then [] else encodeVarint (fieldNo * 8) ++ encodeVarint v

/-- Wire encoding of one `Tag` message: its `values` as repeated string
field number 1 (every element emitted, even an empty string). -/
def encodeTag (t : Tag) : List Nat :=
  (t.values.map (fun v => encodeLenField 1 v)).flatten

/-- Wire encoding of one `ProtoEvent` message. -/
def encodeEvent (e : ProtoEvent) : List Nat :=
  encodeStringField 1 e.id ++
  encodeStringField 2 e.pubkey ++
  encodeIntField 3 (toU64 e.created_at) ++
  encodeIntField 4 (toU64 e.kind) ++
  (e.tags.map (fun t => encodeLenField 5 (encodeTag t))).flatten ++
  encodeStringField 6 e.content ++
  encodeStringField 7 e.sig

/-- Errors of the decoder: a message or frame that ends before a
complete varint / payload (`truncated`), and structurally invalid data
(`malformed`: oversized varint, bad wire type, field number 0). -/
inductive DecodeError where
  | truncated : DecodeError
  | malformed : DecodeError
deriving DecidableEq, Repr

instance {ε α : Type} [DecidableEq ε] [DecidableEq α] :
    DecidableEq (Except ε α) := fun a b =>
  match a, b with
  | .error x, .error y =>
    if h : x = y then isTrue (by rw [h]) else isFalse (by simp [h])
  | .error _, .ok _ => isFalse (by simp)
  | .ok _, .error _ => isFalse (by simp)
  | .ok x, .ok y =>
    if h : x = y then isTrue (by rw [h]) else isFalse (by simp [h])

/-- Varint decoding inside a message (prost's `decode_varint`): unlike
the framing-level `read_varint`, running out of buffer is an error. -/
def decodeVarintM (bytes : List Nat) :
    Except DecodeError (Nat × List Nat) :=
  match readVarint bytes with
  | .eof => .error .truncated
  | .tooLarge _ => .error .malformed
  | .ok v r => .ok (v, r)

/-- Split off exactly `n` bytes, or fail (`prost`'s buffer underflow). -/
def takeExact (n : Nat) (bytes : List Nat) :
    Except DecodeError (List Nat × List Nat) :=
  if n ≤ bytes.length then .ok (bytes.take n, bytes.drop n)
  else .error .truncated

/-- Skip one field of the given wire type (prost's `skip_field`, used
for unknown field numbers). -/
def skipField (wireType : Nat) (bytes : List Nat) :
    Except DecodeError (List Nat) :=
  match wireType with
  | 0 =>
    match decodeVarintM bytes with
    | .error e => .error e
    | .ok (_, r) => .ok r
  | 1 =>
    match takeExact 8 bytes with
    | .error e => .error e
    | .ok (_, r) => .ok r
  | 2 =>
    match decodeVarintM bytes with
    | .error e => .error e
    | .ok (len, r) =>
      match takeExact len r with
      | .error e => .error e
      | .ok (_, r) => .ok r
  | 5 =>
    match takeExact 4 bytes with
    | .error e => .error e
    | .ok (_, r) => .ok r
  | _ => .error .malformed

/-- Read the payload of a length-delimited field: its varint length
followed by exactly that many bytes. -/
def readLenPayload (bytes : List Nat) :
    Except DecodeError (List Nat × List Nat) :=
  match decodeVarintM bytes with
  | .error e => .error e
  | .ok (len, r) => takeExact len r

/-- Merge one field into a `Tag` message: read the field key, then
either append a `values` element (field 1, wire type 2) or skip an
unknown field.  Returns the updated message and the remaining bytes. -/
def decodeTagStep (t : Tag) (bytes : List Nat) :
    Except DecodeError (Tag × List Nat) :=
  match decodeVarintM bytes with
  | .error e => .error e
  | .ok (key, rest) =>
    if key / 8 = 0 then .error .malformed
    else if key / 8 = 1 then
      if key % 8 = 2 then
        match readLenPayload rest with
        | .error e => .error e
        | .ok (v, rest) => .ok ({ values := t.values ++ [v] }, rest)
      else .error .malformed
    else
      match skipField (key % 8) rest with
      | .error e => .error e
      | .ok rest => .ok (t, rest)

/-- Field-merge loop for a `Tag` message.  `fuel` bounds the number of
fields; each field consumes at least one byte, so `bytes.length + 1` is
always enough. -/
def decodeTagFields : Nat → Tag → List Nat → Except DecodeError Tag
  | 0, _, _ => .error .truncated
  | _ + 1, t, [] => .ok t
  | fuel + 1, t, bytes =>
    match decodeTagStep t bytes with
    | .error e => .error e
    | .ok (t, rest) => decodeTagFields fuel t rest

/-- Decode one `Tag` message from a complete sub-message payload. -/
def decodeTag (bytes : List Nat) : Except DecodeError Tag :=
  decodeTagFields (bytes.length + 1) Tag.default bytes

/-- Merge one field into a `ProtoEvent` message: read the field key and
dispatch on the field number.  Scalar fields are last-one-wins, the
repeated `tags` field appends, unknown fields are skipped.  Returns the
updated message and the remaining bytes. -/
def decodeEventStep (e : ProtoEvent) (bytes : List Nat) :
    Except DecodeError (ProtoEvent × List Nat) :=
  match decodeVarintM bytes with
  | .error err => .error err
  | .ok (key, rest) =>
      if key / 8 = 0 then .error .malformed
      else if key / 8 = 1 then
        if key % 8 = 2 then
          match readLenPayload rest with
          | .error err => .error err
          | .ok (s, rest) => .ok ({ e with id := s }, rest)
        else .error .malformed
      else if key / 8 = 2 then
        if key % 8 = 2 then
          match readLenPayload rest with
          | .error err => .error err
          | .ok (s, rest) => .ok ({ e with pubkey := s }, rest)
        else .error .malformed
      else if key / 8 = 3 then
        if key % 8 = 0 then
          match decodeVarintM rest with
          | .error err => .error err
          | .ok (v, rest) => .ok ({ e with created_at := decodeI64 v }, rest)
        else .error .malformed
      else if key / 8 = 4 then
        if key % 8 = 0 then
          match decodeVarintM rest with
          | .error err => .error err
          | .ok (v, rest) => .ok ({ e with kind := decodeI32 v }, rest)
        else .error .malformed
      else if key / 8 = 5 then
        if key % 8 = 2 then
          match readLenPayload rest with
          | .error err => .error err
          | .ok (p, rest) =>
            match decodeTag p with
            | .error err => .error err
            | .ok t => .ok ({ e with tags := e.tags ++ [t] }, rest)
        else .error .malformed
      else if key / 8 = 6 then
        if key % 8 = 2 then
          match readLenPayload rest with
          | .error err => .error err
          | .ok (s, rest) => .ok ({ e with content := s }, rest)
        else .error .malformed
      else if key / 8 = 7 then
        if key % 8 = 2 then
          match readLenPayload rest with
          | .error err => .error err
          | .ok (s, rest) => .ok ({ e with sig := s }, rest)
        else .error .malformed
      else
        match skipField (key % 8) rest with
        | .error err => .error err
        | .ok rest => .ok (e, rest)

/-- Field-merge loop for a `ProtoEvent` message. -/
def decodeEventFields :
    Nat → ProtoEvent → List Nat → Except DecodeError ProtoEvent
  | 0, _, _ => .error .truncated
  | _ + 1, e, [] => .ok e
  | fuel + 1, e, bytes =>
    match decodeEventStep e bytes with
    | .error err => .error err
    | .ok (e, rest) => decodeEventFields fuel e rest

/-- `ProtoEvent::decode` on a complete frame payload. -/
def decodeEvent (bytes : List Nat) : Except DecodeError ProtoEvent :=
  decodeEventFields (bytes.length + 1) ProtoEvent.default bytes

/-! ## Length-delimited framing

`write_event_delimited` / `EventIterator` from
`proton-beam-core/src/storage.rs`. -/

/-- `write_event_delimited_with_buf`: varint length prefix followed by
the encoded message. -/
def writeEventDelimited (e : ProtoEvent) : List Nat :=
  encodeVarint (encodeEvent e).length ++ encodeEvent e

/-- `write_events_delimited`: all frames concatenated. -/
def writeEventsDelimited (es : List ProtoEvent) : List Nat :=
  (es.map writeEventDelimited).flatten

/-- One call of `EventIterator::next` (`storage.rs` lines 92–119):
* `read_varint` hitting `UnexpectedEof` — whether before the first byte
  or in the middle of the length prefix — yields `None` (clean end);
* an oversized varint yields an error item;
* a payload shorter than the announced length fails `read_exact`
  (`UnexpectedEof` again, but here surfaced as an error item), leaving
  the reader at end-of-stream;
* otherwise the payload is passed to `ProtoEvent::decode`. -/
def nextEvent (bytes : List Nat) :
    Option (Except DecodeError ProtoEvent × List Nat) :=
  match readVarint bytes with
  | .eof => none
  | .tooLarge rest => some (.error .malformed, rest)
  | .ok len rest =>
    if len ≤ rest.length then
      some (decodeEvent (rest.take len), rest.drop len)
    else
      some (.error .truncated, [])

/-! ### Decoder support lemmas -/

/-- `readVarintLoop` strictly consumes input in its non-`eof` results. -/
theorem readVarintLoop_length_lt :
    ∀ (bytes : List Nat) (shift acc : Nat),
      (∀ v r, readVarintLoop bytes shift acc = .ok v r →
        r.length < bytes.length) ∧
      (∀ r, readVarintLoop bytes shift acc = .tooLarge r →
        r.length < bytes.length) := by
  intro bytes
  induction bytes with
  | nil => intro shift acc; constructor <;> intro _ <;> simp [readVarintLoop]
  | cons b rest ih =>
    intro shift acc
    constructor
    · intro v r h
      simp only [readVarintLoop] at h
      split at h
      · simp only [VarintResult.ok.injEq] at h
        simp [← h.2]
      · split at h
        · exact absurd h (by simp)
        · exact Nat.lt_trans ((ih _ _).1 v r h) (by simp)
    · intro r h
      simp only [readVarintLoop] at h
      split at h
      · exact absurd h (by simp)
      · split at h
        · simp only [VarintResult.tooLarge.injEq] at h
          simp [← h]
        · exact Nat.lt_trans ((ih _ _).2 r h) (by simp)

theorem decodeVarintM_lt {bytes : List Nat} {v : Nat} {r : List Nat}
    (h : decodeVarintM bytes = .ok (v, r)) : r.length < bytes.length := by
  unfold decodeVarintM at h
  cases hv : readVarint bytes with
  | eof => rw [hv] at h; exact absurd h (by simp)
  | tooLarge r' => rw [hv] at h; exact absurd h (by simp)
  | ok v' r' =>
    rw [hv] at h
    simp only [Except.ok.injEq, Prod.mk.injEq] at h
    rw [← h.2]
    exact (readVarintLoop_length_lt bytes 0 0).1 v' r' hv

theorem takeExact_ok {n : Nat} {bytes x r : List Nat}
    (h : takeExact n bytes = .ok (x, r)) :
    x = bytes.take n ∧ r = bytes.drop n ∧ n ≤ bytes.length := by
  unfold takeExact at h
  split at h
  · simp only [Except.ok.injEq, Prod.mk.injEq] at h
    exact ⟨h.1.symm, h.2.symm, by assumption⟩
  · exact absurd h (by simp)

theorem takeExact_le {n : Nat} {bytes x r : List Nat}
    (h : takeExact n bytes = .ok (x, r)) : r.length ≤ bytes.length := by
  rw [(takeExact_ok h).2.1]
  simp

theorem readLenPayload_lt {bytes p r : List Nat}
    (h : readLenPayload bytes = .ok (p, r)) : r.length < bytes.length := by
  unfold readLenPayload at h
  cases hv : decodeVarintM bytes with
  | error e => rw [hv] at h; exact absurd h (by simp)
  | ok pair =>
    obtain ⟨len, r'⟩ := pair
    rw [hv] at h
    exact Nat.lt_of_le_of_lt (takeExact_le h) (decodeVarintM_lt hv)

theorem skipField_le {wt : Nat} {bytes r : List Nat}
    (h : skipField wt bytes = .ok r) : r.length ≤ bytes.length := by
  unfold skipField at h
  split at h
  · cases hv : decodeVarintM bytes with
    | error e => rw [hv] at h; exact absurd h (by simp)
    | ok pair =>
      obtain ⟨v, r'⟩ := pair
      rw [hv] at h
      simp only [Except.ok.injEq] at h
      rw [← h]
      exact Nat.le_of_lt (decodeVarintM_lt hv)
  · cases ht : takeExact 8 bytes with
    | error e => rw [ht] at h; exact absurd h (by simp)
    | ok pair =>
      obtain ⟨x, r'⟩ := pair
      rw [ht] at h
      simp only [Except.ok.injEq] at h
      rw [← h]
      exact takeExact_le ht
  · cases hv : decodeVarintM bytes with
    | error e => rw [hv] at h; exact absurd h (by simp)
    | ok pair =>
      obtain ⟨len, r'⟩ := pair
      rw [hv] at h
      dsimp only at h
      cases ht : takeExact len r' with
      | error e => rw [ht] at h; exact absurd h (by simp)
      | ok pair2 =>
        obtain ⟨x, r''⟩ := pair2
        rw [ht] at h
        simp only [Except.ok.injEq] at h
        rw [← h]
        exact Nat.le_trans (takeExact_le ht)
          (Nat.le_of_lt (decodeVarintM_lt hv))
  · cases ht : takeExact 4 bytes with
    | error e => rw [ht] at h; exact absurd h (by simp)
    | ok pair =>
      obtain ⟨x, r'⟩ := pair
      rw [ht] at h
      simp only [Except.ok.injEq] at h
      rw [← h]
      exact takeExact_le ht
  · exact absurd h (by simp)

/-- `nextEvent` strictly consumes input. -/
theorem nextEvent_length_lt {bytes : List Nat}
    {item : Except DecodeError ProtoEvent} {rest : List Nat}
    (h : nextEvent bytes = some (item, rest)) :
    rest.length < bytes.length := by
  cases hv : readVarint bytes with
  | eof => simp [nextEvent, hv] at h
  | tooLarge r =>
    simp only [nextEvent, hv, Option.some.injEq, Prod.mk.injEq] at h
    rw [← h.2]
    exact (readVarintLoop_length_lt bytes 0 0).2 r hv
  | ok len r =>
    have hr : r.length < bytes.length :=
      (readVarintLoop_length_lt bytes 0 0).1 len r hv
    simp only [nextEvent, hv] at h
    split at h <;> simp only [Option.some.injEq, Prod.mk.injEq] at h
    · rw [← h.2]
      calc (r.drop len).length ≤ r.length := by simp
        _ < bytes.length := hr
    · rw [← h.2]; simpa using Nat.lt_of_le_of_lt (Nat.zero_le _) hr

/-- Iteration worker for `EventIterator`.  `fuel` only forces structural
termination; every `next` that yields an item strictly consumes input
(`nextEvent_length_lt`), so `bytes.length + 1` always suffices. -/
def readEventsGo : Nat → List Nat → List (Except DecodeError ProtoEvent)
  | 0, _ => []
  | fuel + 1, bytes =>
    match nextEvent bytes with
    | none => []
    | some (item, rest) => item :: readEventsGo fuel rest

/-- The sequence of items produced by iterating `EventIterator::next`
until it returns `None`.  (The Rust caller in the merge stage keeps
calling `next` after an error item, so the model does too.) -/
def readEventsDelimited (bytes : List Nat) :
    List (Except DecodeError ProtoEvent) :=
  readEventsGo (bytes.length + 1) bytes

theorem readEventsGo_irrel :
    ∀ (f₁ : Nat) (f₂ : Nat) (bytes : List Nat),
      bytes.length < f₁ → bytes.length < f₂ →
      readEventsGo f₁ bytes = readEventsGo f₂ bytes := by
  intro f₁
  induction f₁ with
  | zero => omega
  | succ f₁ ih =>
    intro f₂ bytes h₁ h₂
    cases f₂ with
    | zero => omega
    | succ f₂ =>
      rw [readEventsGo, readEventsGo]
      cases hnext : nextEvent bytes with
      | none => rfl
      | some pair =>
        obtain ⟨item, rest⟩ := pair
        have hlt := nextEvent_length_lt hnext
        dsimp only
        rw [ih f₂ rest (by omega) (by omega)]

/-- The defining recurrence of `readEventsDelimited`. -/
theorem readEventsDelimited_eq (bytes : List Nat) :
    readEventsDelimited bytes =
      match nextEvent bytes with
      | none => []
      | some (item, rest) => item :: readEventsDelimited rest := by
  rw [readEventsDelimited, readEventsGo]
  cases hnext : nextEvent bytes with
  | none => rfl
  | some pair =>
    obtain ⟨item, rest⟩ := pair
    have hlt := nextEvent_length_lt hnext
    dsimp only
    rw [readEventsGo_irrel bytes.length (rest.length + 1) rest (by omega)
      (by omega)]
    rfl

/-! ## Varint round-trip -/

theorem and_128_eq_zero_of_lt {b : Nat} (h : b < 128) : b &&& 128 = 0 := by
  have : (128 : Nat) = 2 ^ 7 := by norm_num
  rw [this, Nat.and_two_pow, Nat.testBit_lt_two_pow (by simpa using h)]
  simp

theorem and_128_ne_zero {b : Nat} (h1 : 128 ≤ b) (h2 : b < 256) :
    ¬ b &&& 128 = 0 := by
  have : (128 : Nat) = 2 ^ 7 := by norm_num
  rw [this, Nat.and_two_pow]
  have hb : b.testBit 7 = true := by
    rw [Nat.testBit_to_div_mod]
    have h7 : b / 2 ^ 7 = 1 := by norm_num; omega
    rw [h7]
    decide
  simp [hb]

/-- Accumulator update of the `read_varint` loop, rewritten as addition:
with the low `shift` bits already occupied by `acc` and the incoming
seven-bit group shifted past them, the bitwise or is a plain sum. -/
theorem varint_acc_step {acc shift g : Nat} (hacc : acc < 2 ^ shift)
    (hg : g * 2 ^ shift < 2 ^ 64) :
    acc ||| ((g <<< shift) % 2 ^ 64) = acc + g * 2 ^ shift := by
  rw [Nat.shiftLeft_eq, Nat.mod_eq_of_lt hg, Nat.lor_comm,
    mul_comm g (2 ^ shift), ← Nat.mul_add_lt_is_or hacc,
    mul_comm (2 ^ shift) g]
  omega

theorem readVarintLoop_encodeVarint (n : Nat) :
    ∀ (shift acc : Nat) (rest : List Nat),
      n < 2 ^ (64 - shift) → acc < 2 ^ shift →
      readVarintLoop (encodeVarint n ++ rest) shift acc =
        .ok (acc + n * 2 ^ shift) rest := by
  induction n using Nat.strong_induction_on with
  | _ n ih =>
    intro shift acc rest hn hacc
    rw [encodeVarint_eq]
    by_cases h : n < 128
    · simp only [h, if_true, List.cons_append, List.nil_append]
      have hmul : n * 2 ^ shift < 2 ^ 64 := by
        rcases le_or_lt shift 64 with hs | hs
        · calc n * 2 ^ shift < 2 ^ (64 - shift) * 2 ^ shift :=
              (Nat.mul_lt_mul_right (Nat.two_pow_pos shift)).mpr hn
            _ = 2 ^ 64 := by rw [← pow_add]; congr 1; omega
        · have hn0 : n = 0 := by
            have h0 : 64 - shift = 0 := by omega
            rw [h0, pow_zero] at hn; omega
          simp [hn0]
      simp only [readVarintLoop, and_128_eq_zero_of_lt h, if_true]
      rw [Nat.mod_eq_of_lt h, varint_acc_step hacc hmul]
    · push_neg at h
      rw [if_neg (by omega : ¬ n < 128)]
      simp only [List.cons_append]
      have hshift : shift < 57 := by
        by_contra hc
        push_neg at hc
        have : (2 : Nat) ^ (64 - shift) ≤ 2 ^ 7 :=
          Nat.pow_le_pow_right (by norm_num) (by omega)
        omega
      have hb : ¬ (n % 128 + 128) &&& 128 = 0 :=
        and_128_ne_zero (by omega) (by omega)
      have hgmul : n % 128 * 2 ^ shift < 2 ^ 64 := by
        calc n % 128 * 2 ^ shift < 128 * 2 ^ shift :=
            (Nat.mul_lt_mul_right (Nat.two_pow_pos shift)).mpr (by omega)
          _ = 2 ^ (shift + 7) := by rw [pow_add]; ring
          _ < 2 ^ 64 := Nat.pow_lt_pow_right (by norm_num) (by omega)
      simp only [readVarintLoop, hb, if_false]
      rw [if_neg (by omega : ¬ 64 ≤ shift + 7)]
      have hbm : (n % 128 + 128) % 128 = n % 128 := by omega
      rw [hbm, varint_acc_step hacc hgmul]
      rw [ih (n / 128) (Nat.div_lt_self (by omega) (by norm_num))
        (shift + 7) _ rest
        (by
          rw [Nat.div_lt_iff_lt_mul (by norm_num : (0:Nat) < 128)]
          calc n < 2 ^ (64 - shift) := hn
            _ = 2 ^ (64 - (shift + 7)) * 128 := by
              rw [(by norm_num : (128:Nat) = 2 ^ 7), ← pow_add]
              congr 1; omega)
        (by
          calc acc + n % 128 * 2 ^ shift
              < 2 ^ shift + 127 * 2 ^ shift := by
                have : n % 128 * 2 ^ shift ≤ 127 * 2 ^ shift :=
                  Nat.mul_le_mul_right _ (by omega)
                omega
            _ = 2 ^ (shift + 7) := by rw [pow_add]; ring)]
      congr 1
      conv_rhs => rw [← Nat.div_add_mod n 128]
      rw [pow_add]
      ring

/-- `read_varint` applied to an encoded value below `2 ^ 64` followed by
any remainder returns that value and the remainder. -/
theorem readVarint_encodeVarint {n : Nat} (hn : n < 2 ^ 64)
    (rest : List Nat) :
    readVarint (encodeVarint n ++ rest) = .ok n rest := by
  have := readVarintLoop_encodeVarint n 0 0 rest (by simpa using hn)
    (by norm_num)
  simpa using this

/-! ## Chunk scheduler

`find_chunk_boundaries` in `proton-beam-cli/src/main.rs` (lines 912–957).
The input file is modelled as its byte sequence; `reader.read` into the
8 KiB probe buffer is modelled as returning `min 8192 (file_size - target)`
bytes (a regular-file read at offset `target`). -/

/-- One iteration of the `for i in 0..num_chunks` loop of
`find_chunk_boundaries`.  `i` is the loop index, `remaining` counts the
iterations left strictly before the final one (the Rust code breaks at
`i == num_chunks - 1`, pushing `(current_start, file_size)`). -/
def findChunkBoundariesGo (data : List Nat) (chunkSize : Nat) :
    Nat → Nat → Nat → List (Nat × Nat)
  | _, 0, currentStart => [(currentStart, data.length)]
  | i, remaining + 1, currentStart =>
    let target := chunkSize * (i + 1)
    let buf := (data.drop target).take 8192
    let bytesRead := buf.length
    let newlinePos :=
      match buf.findIdx? (· = 10) with
      | some p => p
      | none => bytesRead - 1
    let chunkEnd := target + newlinePos + 1
    (currentStart, chunkEnd) ::
      findChunkBoundariesGo data chunkSize (i + 1) remaining chunkEnd

/-- `find_chunk_boundaries(path, num_chunks)`.  An empty file yields no
chunks; the Rust code divides by `num_chunks`, so the model is stated for
`numChunks ≥ 1` (it returns `[]` at 0, where the Rust code would panic). -/
def findChunkBoundaries (data : List Nat) (numChunks : Nat) : List (Nat × Nat) :=
  if data.length = 0 then []
  else if numChunks = 0 then []
  else findChunkBoundariesGo data (data.length / numChunks) 0 (numChunks - 1) 0


theorem decodeTagStep_lt {t : Tag} {bytes : List Nat} {t' : Tag}
    {rest : List Nat} (h : decodeTagStep t bytes = .ok (t', rest)) :
    rest.length < bytes.length := by
  unfold decodeTagStep at h
  cases hk : decodeVarintM bytes with
  | error e => rw [hk] at h; exact absurd h (by simp)
  | ok pair =>
    obtain ⟨key, r1⟩ := pair
    rw [hk] at h
    dsimp only at h
    have h1 := decodeVarintM_lt hk
    by_cases hk0 : key / 8 = 0
    · rw [if_pos hk0] at h; exact absurd h (by simp)
    · rw [if_neg hk0] at h
      by_cases hk1 : key / 8 = 1
      · rw [if_pos hk1] at h
        by_cases hw : key % 8 = 2
        · rw [if_pos hw] at h
          cases hp : readLenPayload r1 with
          | error e => rw [hp] at h; exact absurd h (by simp)
          | ok pair2 =>
            obtain ⟨v, r2⟩ := pair2
            rw [hp] at h
            simp only [Except.ok.injEq, Prod.mk.injEq] at h
            rw [← h.2]
            exact Nat.lt_trans (readLenPayload_lt hp) h1
        · rw [if_neg hw] at h; exact absurd h (by simp)
      · rw [if_neg hk1] at h
        cases hs : skipField (key % 8) r1 with
        | error e => rw [hs] at h; exact absurd h (by simp)
        | ok r2 =>
          rw [hs] at h
          simp only [Except.ok.injEq, Prod.mk.injEq] at h
          rw [← h.2]
          exact Nat.lt_of_le_of_lt (skipField_le hs) h1

theorem decodeEventStep_lt {e : ProtoEvent} {bytes : List Nat}
    {e' : ProtoEvent} {rest : List Nat}
    (h : decodeEventStep e bytes = .ok (e', rest)) :
    rest.length < bytes.length := by
  unfold decodeEventStep at h
  cases hk : decodeVarintM bytes with
  | error err => rw [hk] at h; exact absurd h (by simp)
  | ok pair =>
    obtain ⟨key, r1⟩ := pair
    rw [hk] at h
    dsimp only at h
    have h1 := decodeVarintM_lt hk
    by_cases hk0 : key / 8 = 0
    · rw [if_pos hk0] at h; exact absurd h (by simp)
    rw [if_neg hk0] at h
    by_cases hk1 : key / 8 = 1
    · rw [if_pos hk1] at h
      by_cases hw : key % 8 = 2
      · rw [if_pos hw] at h
        cases hp : readLenPayload r1 with
        | error err => rw [hp] at h; exact absurd h (by simp)
        | ok pair2 =>
          obtain ⟨v, r2⟩ := pair2
          rw [hp] at h
          simp only [Except.ok.injEq, Prod.mk.injEq] at h
          rw [← h.2]
          exact Nat.lt_trans (readLenPayload_lt hp) h1
      · rw [if_neg hw] at h; exact absurd h (by simp)
    rw [if_neg hk1] at h
    by_cases hk2 : key / 8 = 2
    · rw [if_pos hk2] at h
      by_cases hw : key % 8 = 2
      · rw [if_pos hw] at h
        cases hp : readLenPayload r1 with
        | error err => rw [hp] at h; exact absurd h (by simp)
        | ok pair2 =>
          obtain ⟨v, r2⟩ := pair2
          rw [hp] at h
          simp only [Except.ok.injEq, Prod.mk.injEq] at h
          rw [← h.2]
          exact Nat.lt_trans (readLenPayload_lt hp) h1
      · rw [if_neg hw] at h; exact absurd h (by simp)
    rw [if_neg hk2] at h
    by_cases hk3 : key / 8 = 3
    · rw [if_pos hk3] at h
      by_cases hw : key % 8 = 0
      · rw [if_pos hw] at h
        cases hv : decodeVarintM r1 with
        | error err => rw [hv] at h; exact absurd h (by simp)
        | ok pair2 =>
          obtain ⟨v, r2⟩ := pair2
          rw [hv] at h
          simp only [Except.ok.injEq, Prod.mk.injEq] at h
          rw [← h.2]
          exact Nat.lt_trans (decodeVarintM_lt hv) h1
      · rw [if_neg hw] at h; exact absurd h (by simp)
    rw [if_neg hk3] at h
    by_cases hk4 : key / 8 = 4
    · rw [if_pos hk4] at h
      by_cases hw : key % 8 = 0
      · rw [if_pos hw] at h
        cases hv : decodeVarintM r1 with
        | error err => rw [hv] at h; exact absurd h (by simp)
        | ok pair2 =>
          obtain ⟨v, r2⟩ := pair2
          rw [hv] at h
          simp only [Except.ok.injEq, Prod.mk.injEq] at h
          rw [← h.2]
          exact Nat.lt_trans (decodeVarintM_lt hv) h1
      · rw [if_neg hw] at h; exact absurd h (by simp)
    rw [if_neg hk4] at h
    by_cases hk5 : key / 8 = 5
    · rw [if_pos hk5] at h
      by_cases hw : key % 8 = 2
      · rw [if_pos hw] at h
        cases hp : readLenPayload r1 with
        | error err => rw [hp] at h; exact absurd h (by simp)
        | ok pair2 =>
          obtain ⟨p, r2⟩ := pair2
          rw [hp] at h
          dsimp only at h
          cases ht : decodeTag p with
          | error err => rw [ht] at h; exact absurd h (by simp)
          | ok tg =>
            rw [ht] at h
            simp only [Except.ok.injEq, Prod.mk.injEq] at h
            rw [← h.2]
            exact Nat.lt_trans (readLenPayload_lt hp) h1
      · rw [if_neg hw] at h; exact absurd h (by simp)
    rw [if_neg hk5] at h
    by_cases hk6 : key / 8 = 6
    · rw [if_pos hk6] at h
      by_cases hw : key % 8 = 2
      · rw [if_pos hw] at h
        cases hp : readLenPayload r1 with
        | error err => rw [hp] at h; exact absurd h (by simp)
        | ok pair2 =>
          obtain ⟨v, r2⟩ := pair2
          rw [hp] at h
          simp only [Except.ok.injEq, Prod.mk.injEq] at h
          rw [← h.2]
          exact Nat.lt_trans (readLenPayload_lt hp) h1
      · rw [if_neg hw] at h; exact absurd h (by simp)
    rw [if_neg hk6] at h
    by_cases hk7 : key / 8 = 7
    · rw [if_pos hk7] at h
      by_cases hw : key % 8 = 2
      · rw [if_pos hw] at h
        cases hp : readLenPayload r1 with
        | error err => rw [hp] at h; exact absurd h (by simp)
        | ok pair2 =>
          obtain ⟨v, r2⟩ := pair2
          rw [hp] at h
          simp only [Except.ok.injEq, Prod.mk.injEq] at h
          rw [← h.2]
          exact Nat.lt_trans (readLenPayload_lt hp) h1
      · rw [if_neg hw] at h; exact absurd h (by simp)
    rw [if_neg hk7] at h
    cases hs : skipField (key % 8) r1 with
    | error err => rw [hs] at h; exact absurd h (by simp)
    | ok r2 =>
      rw [hs] at h
      simp only [Except.ok.injEq, Prod.mk.injEq] at h
      rw [← h.2]
      exact Nat.lt_of_le_of_lt (skipField_le hs) h1

theorem decodeTagFields_irrel :
    ∀ (f₁ : Nat) (f₂ : Nat) (t : Tag) (bytes : List Nat),
      bytes.length < f₁ → bytes.length < f₂ →
      decodeTagFields f₁ t bytes = decodeTagFields f₂ t bytes := by
  intro f₁
  induction f₁ with
  | zero => omega
  | succ f₁ ih =>
    intro f₂ t bytes h₁ h₂
    cases f₂ with
    | zero => omega
    | succ f₂ =>
      cases bytes with
      | nil => rfl
      | cons b bs =>
        simp only [List.length_cons] at h₁ h₂
        cases hs : decodeTagStep t (b :: bs) with
        | error e => simp only [decodeTagFields, hs]
        | ok pair =>
          obtain ⟨t', rest⟩ := pair
          have hlt := decodeTagStep_lt hs
          simp only [List.length_cons] at hlt
          simp only [decodeTagFields, hs]
          exact ih f₂ t' rest (by omega) (by omega)

theorem decodeEventFields_irrel :
    ∀ (f₁ : Nat) (f₂ : Nat) (e : ProtoEvent) (bytes : List Nat),
      bytes.length < f₁ → bytes.length < f₂ →
      decodeEventFields f₁ e bytes = decodeEventFields f₂ e bytes := by
  intro f₁
  induction f₁ with
  | zero => omega
  | succ f₁ ih =>
    intro f₂ e bytes h₁ h₂
    cases f₂ with
    | zero => omega
    | succ f₂ =>
      cases bytes with
      | nil => rfl
      | cons b bs =>
        simp only [List.length_cons] at h₁ h₂
        cases hs : decodeEventStep e (b :: bs) with
        | error err => simp only [decodeEventFields, hs]
        | ok pair =>
          obtain ⟨e', rest⟩ := pair
          have hlt := decodeEventStep_lt hs
          simp only [List.length_cons] at hlt
          simp only [decodeEventFields, hs]
          exact ih f₂ e' rest (by omega) (by omega)


/-! ### Round-trip of the codec -/

theorem decodeVarintM_encodeVarint {n : Nat} (hn : n < 2 ^ 64)
    (rest : List Nat) :
    decodeVarintM (encodeVarint n ++ rest) = .ok (n, rest) := by
  unfold decodeVarintM
  rw [readVarint_encodeVarint hn rest]

theorem takeExact_prefix (s rest : List Nat) :
    takeExact s.length (s ++ rest) = .ok (s, rest) := by
  unfold takeExact
  rw [if_pos (by simp), List.take_left, List.drop_left]

theorem readLenPayload_encodeVarint {s : List Nat} (hs : s.length < 2 ^ 64)
    (rest : List Nat) :
    readLenPayload (encodeVarint s.length ++ (s ++ rest)) = .ok (s, rest) := by
  unfold readLenPayload
  rw [decodeVarintM_encodeVarint hs]
  exact takeExact_prefix s rest

theorem toU64_lt (x : Int) : toU64 x < 2 ^ 64 := by
  unfold toU64
  omega

theorem decodeI64_toU64 {x : Int} (h₁ : -2 ^ 63 ≤ x) (h₂ : x < 2 ^ 63) :
    decodeI64 (toU64 x) = x := by
  unfold decodeI64 toU64
  split <;> omega

theorem decodeI32_toU64 {x : Int} (h₁ : -2 ^ 31 ≤ x) (h₂ : x < 2 ^ 31) :
    decodeI32 (toU64 x) = x := by
  unfold decodeI32 toU64
  split <;> omega

theorem toU64_eq_zero_iff {x : Int} (h₁ : -2 ^ 63 ≤ x) (h₂ : x < 2 ^ 63) :
    toU64 x = 0 ↔ x = 0 := by
  unfold toU64
  omega


theorem encodeVarint_ne_nil (n : Nat) : encodeVarint n ≠ [] := by
  rw [encodeVarint_eq]
  split <;> simp

theorem encodeLenField_ne_nil (fieldNo : Nat) (payload : List Nat) :
    encodeLenField fieldNo payload ≠ [] := by
  unfold encodeLenField
  simp [encodeVarint_ne_nil]

/-- Run the `ProtoEvent` field-merge loop with its canonical fuel. -/
def runEventFields (e : ProtoEvent) (bytes : List Nat) :
    Except DecodeError ProtoEvent :=
  decodeEventFields (bytes.length + 1) e bytes

/-- Run the `Tag` field-merge loop with its canonical fuel. -/
def runTagFields (t : Tag) (bytes : List Nat) : Except DecodeError Tag :=
  decodeTagFields (bytes.length + 1) t bytes

theorem runTagFields_nil (t : Tag) : runTagFields t [] = .ok t := rfl

theorem runEventFields_nil (e : ProtoEvent) :
    runEventFields e [] = .ok e := rfl

theorem runTagFields_step {t : Tag} {bytes : List Nat} {t' : Tag}
    {rest : List Nat} (hstep : decodeTagStep t bytes = .ok (t', rest)) :
    runTagFields t bytes = runTagFields t' rest := by
  cases bytes with
  | nil =>
    exact absurd hstep (by unfold decodeTagStep decodeVarintM readVarint; simp [readVarintLoop])
  | cons b bs =>
    have hlt := decodeTagStep_lt hstep
    simp only [List.length_cons] at hlt
    unfold runTagFields
    simp only [List.length_cons, decodeTagFields, hstep]
    exact decodeTagFields_irrel (bs.length + 1) (rest.length + 1) t' rest
      (by omega) (by omega)

theorem runEventFields_step {e : ProtoEvent} {bytes : List Nat}
    {e' : ProtoEvent} {rest : List Nat}
    (hstep : decodeEventStep e bytes = .ok (e', rest)) :
    runEventFields e bytes = runEventFields e' rest := by
  cases bytes with
  | nil =>
    exact absurd hstep (by unfold decodeEventStep decodeVarintM readVarint; simp [readVarintLoop])
  | cons b bs =>
    have hlt := decodeEventStep_lt hstep
    simp only [List.length_cons] at hlt
    unfold runEventFields
    simp only [List.length_cons, decodeEventFields, hstep]
    exact decodeEventFields_irrel (bs.length + 1) (rest.length + 1) e' rest
      (by omega) (by omega)

theorem decodeTagStep_value {t : Tag} {v : List Nat}
    (hv : v.length < 2 ^ 64) (rest : List Nat) :
    decodeTagStep t (encodeLenField 1 v ++ rest) =
      .ok ({ values := t.values ++ [v] }, rest) := by
  unfold decodeTagStep encodeLenField
  rw [List.append_assoc, List.append_assoc,
    decodeVarintM_encodeVarint (by norm_num) _]
  norm_num
  rw [readLenPayload_encodeVarint hv rest]

theorem runTagFields_values (vs : List (List Nat)) :
    ∀ (t : Tag) (rest : List Nat), (∀ v ∈ vs, v.length < 2 ^ 64) →
      runTagFields t ((vs.map (encodeLenField 1)).flatten ++ rest) =
        runTagFields { values := t.values ++ vs } rest := by
  induction vs with
  | nil => intro t rest _; simp
  | cons v vs ih =>
    intro t rest hb
    simp only [List.map_cons, List.flatten_cons, List.append_assoc]
    rw [runTagFields_step (decodeTagStep_value (hb v (by simp)) _),
      ih _ rest (fun w hw => hb w (by simp [hw]))]
    simp

theorem decodeTag_encodeTag {t : Tag}
    (h : ∀ v ∈ t.values, v.length < 2 ^ 64) :
    decodeTag (encodeTag t) = .ok t := by
  have h0 : decodeTag (encodeTag t) = runTagFields Tag.default (encodeTag t) :=
    rfl
  rw [h0, ← List.append_nil (encodeTag t), encodeTag,
    runTagFields_values t.values Tag.default [] h]
  simp [Tag.default, runTagFields_nil]


theorem decodeEventStep_id (e : ProtoEvent) {s : List Nat}
    (hs : s.length < 2 ^ 64) (rest : List Nat) :
    decodeEventStep e (encodeLenField 1 s ++ rest) =
      .ok ({ e with id := s }, rest) := by
  unfold decodeEventStep encodeLenField
  rw [List.append_assoc, List.append_assoc,
    decodeVarintM_encodeVarint (by norm_num) _]
  norm_num
  rw [readLenPayload_encodeVarint hs rest]

theorem decodeEventStep_pubkey (e : ProtoEvent) {s : List Nat}
    (hs : s.length < 2 ^ 64) (rest : List Nat) :
    decodeEventStep e (encodeLenField 2 s ++ rest) =
      .ok ({ e with pubkey := s }, rest) := by
  unfold decodeEventStep encodeLenField
  rw [List.append_assoc, List.append_assoc,
    decodeVarintM_encodeVarint (by norm_num) _]
  norm_num
  rw [readLenPayload_encodeVarint hs rest]

theorem decodeEventStep_content (e : ProtoEvent) {s : List Nat}
    (hs : s.length < 2 ^ 64) (rest : List Nat) :
    decodeEventStep e (encodeLenField 6 s ++ rest) =
      .ok ({ e with content := s }, rest) := by
  unfold decodeEventStep encodeLenField
  rw [List.append_assoc, List.append_assoc,
    decodeVarintM_encodeVarint (by norm_num) _]
  norm_num
  rw [readLenPayload_encodeVarint hs rest]

theorem decodeEventStep_sig (e : ProtoEvent) {s : List Nat}
    (hs : s.length < 2 ^ 64) (rest : List Nat) :
    decodeEventStep e (encodeLenField 7 s ++ rest) =
      .ok ({ e with sig := s }, rest) := by
  unfold decodeEventStep encodeLenField
  rw [List.append_assoc, List.append_assoc,
    decodeVarintM_encodeVarint (by norm_num) _]
  norm_num
  rw [readLenPayload_encodeVarint hs rest]

theorem decodeEventStep_created_at (e : ProtoEvent) {v : Nat}
    (hv : v < 2 ^ 64) (rest : List Nat) :
    decodeEventStep e ((encodeVarint (3 * 8) ++ encodeVarint v) ++ rest) =
      .ok ({ e with created_at := decodeI64 v }, rest) := by
  unfold decodeEventStep
  rw [List.append_assoc, decodeVarintM_encodeVarint (by norm_num) _]
  norm_num
  rw [decodeVarintM_encodeVarint hv rest]

theorem decodeEventStep_kind (e : ProtoEvent) {v : Nat}
    (hv : v < 2 ^ 64) (rest : List Nat) :
    decodeEventStep e ((encodeVarint (4 * 8) ++ encodeVarint v) ++ rest) =
      .ok ({ e with kind := decodeI32 v }, rest) := by
  unfold decodeEventStep
  rw [List.append_assoc, decodeVarintM_encodeVarint (by norm_num) _]
  norm_num
  rw [decodeVarintM_encodeVarint hv rest]

theorem decodeEventStep_tag (e : ProtoEvent) {t : Tag}
    (ht : ∀ v ∈ t.values, v.length < 2 ^ 64)
    (hlen : (encodeTag t).length < 2 ^ 64) (rest : List Nat) :
    decodeEventStep e (encodeLenField 5 (encodeTag t) ++ rest) =
      .ok ({ e with tags := e.tags ++ [t] }, rest) := by
  unfold decodeEventStep encodeLenField
  rw [List.append_assoc, List.append_assoc,
    decodeVarintM_encodeVarint (by norm_num) _]
  norm_num
  rw [readLenPayload_encodeVarint hlen rest]
  dsimp only
  rw [decodeTag_encodeTag ht]


/-- Well-formedness of an event as a value of the Rust program: string
lengths and the encoded size fit in `usize`/`u64`, and the integer
fields lie in the `i64` / `i32` ranges of `created_at` and `kind`.
Byte values themselves are unconstrained: the codec copies payload bytes
verbatim. -/
def ProtoEvent.WF (e : ProtoEvent) : Prop :=
  e.id.length < 2 ^ 64 ∧ e.pubkey.length < 2 ^ 64 ∧
  e.content.length < 2 ^ 64 ∧ e.sig.length < 2 ^ 64 ∧
  -2 ^ 63 ≤ e.created_at ∧ e.created_at < 2 ^ 63 ∧
  -2 ^ 31 ≤ e.kind ∧ e.kind < 2 ^ 31 ∧
  (∀ t ∈ e.tags, (∀ v ∈ t.values, v.length < 2 ^ 64) ∧
    (encodeTag t).length < 2 ^ 64) ∧
  (encodeEvent e).length < 2 ^ 64

instance (e : ProtoEvent) : Decidable e.WF := by
  unfold ProtoEvent.WF
  infer_instance

theorem runEventFields_idChunk (acc : ProtoEvent) {s : List Nat}
    (hs : s.length < 2 ^ 64) (hacc : acc.id = []) (rest : List Nat) :
    runEventFields acc (encodeStringField 1 s ++ rest) =
      runEventFields { acc with id := s } rest := by
  by_cases h : s = []
  · subst h
    rw [encodeStringField, if_pos rfl, List.nil_append]
    have he : ({ acc with id := [] } : ProtoEvent) = acc := by
      cases acc
      simp_all
    rw [he]
  · rw [encodeStringField, if_neg h]
    exact runEventFields_step (decodeEventStep_id acc hs rest)

theorem runEventFields_pubkeyChunk (acc : ProtoEvent) {s : List Nat}
    (hs : s.length < 2 ^ 64) (hacc : acc.pubkey = []) (rest : List Nat) :
    runEventFields acc (encodeStringField 2 s ++ rest) =
      runEventFields { acc with pubkey := s } rest := by
  by_cases h : s = []
  · subst h
    rw [encodeStringField, if_pos rfl, List.nil_append]
    have he : ({ acc with pubkey := [] } : ProtoEvent) = acc := by
      cases acc
      simp_all
    rw [he]
  · rw [encodeStringField, if_neg h]
    exact runEventFields_step (decodeEventStep_pubkey acc hs rest)

theorem runEventFields_contentChunk (acc : ProtoEvent) {s : List Nat}
    (hs : s.length < 2 ^ 64) (hacc : acc.content = []) (rest : List Nat) :
    runEventFields acc (encodeStringField 6 s ++ rest) =
      runEventFields { acc with content := s } rest := by
  by_cases h : s = []
  · subst h
    rw [encodeStringField, if_pos rfl, List.nil_append]
    have he : ({ acc with content := [] } : ProtoEvent) = acc := by
      cases acc
      simp_all
    rw [he]
  · rw [encodeStringField, if_neg h]
    exact runEventFields_step (decodeEventStep_content acc hs rest)

theorem runEventFields_sigChunk (acc : ProtoEvent) {s : List Nat}
    (hs : s.length < 2 ^ 64) (hacc : acc.sig = []) (rest : List Nat) :
    runEventFields acc (encodeStringField 7 s ++ rest) =
      runEventFields { acc with sig := s } rest := by
  by_cases h : s = []
  · subst h
    rw [encodeStringField, if_pos rfl, List.nil_append]
    have he : ({ acc with sig := [] } : ProtoEvent) = acc := by
      cases acc
      simp_all
    rw [he]
  · rw [encodeStringField, if_neg h]
    exact runEventFields_step (decodeEventStep_sig acc hs rest)

theorem runEventFields_createdChunk (acc : ProtoEvent) {x : Int}
    (h₁ : -2 ^ 63 ≤ x) (h₂ : x < 2 ^ 63) (hacc : acc.created_at = 0)
    (rest : List Nat) :
    runEventFields acc (encodeIntField 3 (toU64 x) ++ rest) =
      runEventFields { acc with created_at := x } rest := by
  by_cases h : toU64 x = 0
  · have hx0 : x = 0 := (toU64_eq_zero_iff h₁ h₂).1 h
    subst hx0
    rw [encodeIntField, if_pos h, List.nil_append]
    have he : ({ acc with created_at := 0 } : ProtoEvent) = acc := by
      cases acc
      simp_all
    rw [he]
  · rw [encodeIntField, if_neg h,
      runEventFields_step (decodeEventStep_created_at acc (toU64_lt x) rest),
      decodeI64_toU64 h₁ h₂]

theorem runEventFields_kindChunk (acc : ProtoEvent) {x : Int}
    (h₁ : -2 ^ 31 ≤ x) (h₂ : x < 2 ^ 31) (hacc : acc.kind = 0)
    (rest : List Nat) :
    runEventFields acc (encodeIntField 4 (toU64 x) ++ rest) =
      runEventFields { acc with kind := x } rest := by
  by_cases h : toU64 x = 0
  · have hx0 : x = 0 := (toU64_eq_zero_iff (by omega) (by omega)).1 h
    subst hx0
    rw [encodeIntField, if_pos h, List.nil_append]
    have he : ({ acc with kind := 0 } : ProtoEvent) = acc := by
      cases acc
      simp_all
    rw [he]
  · rw [encodeIntField, if_neg h,
      runEventFields_step (decodeEventStep_kind acc (toU64_lt x) rest),
      decodeI32_toU64 h₁ h₂]

theorem runEventFields_tagsChunk (ts : List Tag) :
    ∀ (acc : ProtoEvent) (rest : List Nat),
      (∀ t ∈ ts, (∀ v ∈ t.values, v.length < 2 ^ 64) ∧
        (encodeTag t).length < 2 ^ 64) →
      runEventFields acc
          ((ts.map (fun t => encodeLenField 5 (encodeTag t))).flatten ++
            rest) =
        runEventFields { acc with tags := acc.tags ++ ts } rest := by
  induction ts with
  | nil =>
    intro acc rest _
    have he : ({ acc with tags := acc.tags ++ [] } : ProtoEvent) = acc := by
      cases acc
      simp
    simp [he]
  | cons t ts ih =>
    intro acc rest hb
    simp only [List.map_cons, List.flatten_cons, List.append_assoc]
    rw [runEventFields_step
        (decodeEventStep_tag acc (hb t (by simp)).1 (hb t (by simp)).2 _),
      ih _ rest (fun u hu => hb u (by simp [hu]))]
    simp

/-- `ProtoEvent::decode ∘ encode` is the identity on well-formed
events. -/
theorem decodeEvent_encodeEvent {e : ProtoEvent} (h : e.WF) :
    decodeEvent (encodeEvent e) = .ok e := by
  obtain ⟨h1, h2, h3, h4, h5, h6, h7, h8, h9, h10⟩ := h
  have h0 : decodeEvent (encodeEvent e) =
      runEventFields ProtoEvent.default (encodeEvent e) := rfl
  rw [h0, ← List.append_nil (encodeEvent e)]
  rw [encodeEvent]
  simp only [List.append_assoc]
  rw [runEventFields_idChunk _ h1 rfl,
    runEventFields_pubkeyChunk _ h2 rfl,
    runEventFields_createdChunk _ h5 h6 rfl,
    runEventFields_kindChunk _ h7 h8 rfl,
    runEventFields_tagsChunk e.tags _ _ h9,
    runEventFields_contentChunk _ h3 rfl,
    runEventFields_sigChunk _ h4 rfl,
    runEventFields_nil]
  cases e
  simp [ProtoEvent.default]


theorem nextEvent_nil : nextEvent [] = none := rfl

/-- One frame followed by anything: the iterator returns exactly the
framed event and leaves the remainder untouched. -/
theorem nextEvent_frame {e : ProtoEvent} (hwf : e.WF) (rest : List Nat) :
    nextEvent (writeEventDelimited e ++ rest) = some (.ok e, rest) := by
  have h10 : (encodeEvent e).length < 2 ^ 64 := by
    obtain ⟨_, _, _, _, _, _, _, _, _, h10⟩ := hwf
    exact h10
  unfold writeEventDelimited nextEvent
  rw [List.append_assoc, readVarint_encodeVarint h10]
  dsimp only
  rw [if_pos (by simp), List.take_left, List.drop_left,
    decodeEvent_encodeEvent hwf]

/-- Encoding a sequence of events and reading the bytes back yields
exactly those events, in order, each wrapped in `Ok`. -/
theorem readEvents_writeEvents :
    ∀ (es : List ProtoEvent), (∀ e ∈ es, e.WF) →
      readEventsDelimited (writeEventsDelimited es) = es.map .ok := by
  intro es
  induction es with
  | nil =>
    intro _
    rw [writeEventsDelimited]
    simp [readEventsDelimited_eq, nextEvent_nil]
  | cons e es ih =>
    intro h
    rw [writeEventsDelimited, List.map_cons, List.flatten_cons,
      readEventsDelimited_eq, nextEvent_frame (h e (by simp))]
    dsimp only
    rw [← writeEventsDelimited, ih (fun x hx => h x (by simp [hx]))]
    rfl


/-! ## Validation (`proton-beam-core/src/validation.rs`)

`validate_basic_fields`, `is_hex`, the canonical serialization of
`compute_event_hash` (`serde_json::to_vec` of the `json!` array
`[0, pubkey, created_at, kind, tags, content]`, with serde_json's
compact formatting and string escaping), and SHA-256 (FIPS 180-4,
modelling the `sha2` crate). -/

/-- `char::is_ascii_hexdigit`. -/
def isHexDigit (c : Nat) : Bool :=
  (48 ≤ c && c ≤ 57) || (97 ≤ c && c ≤ 102) || (65 ≤ c && c ≤ 70)

/-- `is_hex` from `validation.rs`: all characters are hex digits. -/
def isHex (s : List Nat) : Bool := s.all isHexDigit

/-- The error cases of `validate_basic_fields`. -/
inductive ValidationError where
  | invalidHex : ValidationError
  | invalidTimestamp : ValidationError
  | invalidKind : ValidationError
  | eventIdMismatch : ValidationError
deriving DecidableEq, Repr

/-- `validate_basic_fields` (`validation.rs` lines 44–83): hex shape of
`id`/`pubkey`/`sig`, non-negative `created_at`, `kind` in `[0, 65535]`.
`String::len` counts bytes, as does `List.length` here. -/
def validateBasicFields (e : ProtoEvent) : Except ValidationError Unit :=
  if e.id.length ≠ 64 || !isHex e.id then .error .invalidHex
  else if e.pubkey.length ≠ 64 || !isHex e.pubkey then .error .invalidHex
  else if e.sig.length ≠ 128 || !isHex e.sig then .error .invalidHex
  else if e.created_at < 0 then .error .invalidTimestamp
  else if e.kind < 0 || e.kind > 65535 then .error .invalidKind
  else .ok ()

/-- Lower-case hex digit, as in serde_json's and the `hex` crate's
tables. -/
def hexDigitChar (n : Nat) : Nat := if n < 10 then 48 + n else 87 + n

/-- serde_json's string escaping: `"` and `\\` get a backslash escape,
the control bytes `\b \t \n \f \r` their short forms, every other
byte below 0x20 a `\u00XX` escape, and everything else is copied
verbatim. -/
def escapeByte (b : Nat) : List Nat :=
  if b = 34 then [92, 34]
  else if b = 92 then [92, 92]
  else if b = 8 then [92, 98]
  else if b = 9 then [92, 116]
  else if b = 10 then [92, 110]
  else if b = 12 then [92, 102]
  else if b = 13 then [92, 114]
  else if b < 32 then [92, 117, 48, 48, hexDigitChar (b / 16), hexDigitChar (b % 16)]
  else [b]

/-- A JSON string literal: quote, escaped bytes, quote. -/
def serString (s : List Nat) : List Nat :=
  [34] ++ (s.map escapeByte).flatten ++ [34]

/-- Decimal digits worker (`fuel` forces structural termination;
`n + 1` always suffices since the value shrinks by 10 per digit). -/
def natToDigitsAux : Nat → Nat → List Nat
  | 0, n => [48 + n]
  | fuel + 1, n =>
    if n < 10 then [48 + n]
    else natToDigitsAux fuel (n / 10) ++ [48 + n % 10]

/-- Decimal digit bytes of a natural number, most significant first. -/
def natToDigits (n : Nat) : List Nat := natToDigitsAux (n + 1) n

theorem natToDigitsAux_irrel :
    ∀ (f₁ : Nat) (f₂ n : Nat), n < f₁ → n < f₂ →
      natToDigitsAux f₁ n = natToDigitsAux f₂ n := by
  intro f₁
  induction f₁ with
  | zero => omega
  | succ f₁ ih =>
    intro f₂ n h₁ h₂
    cases f₂ with
    | zero => omega
    | succ f₂ =>
      by_cases h : n < 10
      · simp [natToDigitsAux, h]
      · rw [natToDigitsAux, if_neg h, natToDigitsAux, if_neg h,
          ih f₂ (n / 10)
            (by
              have := Nat.div_lt_self (by omega : 0 < n)
                (by norm_num : 1 < 10)
              omega)
            (by
              have := Nat.div_lt_self (by omega : 0 < n)
                (by norm_num : 1 < 10)
              omega)]

/-- The defining recurrence of `natToDigits`. -/
theorem natToDigits_eq (n : Nat) :
    natToDigits n =
      if n < 10 then [48 + n]
      else natToDigits (n / 10) ++ [48 + n % 10] := by
  by_cases h : n < 10
  · simp [natToDigits, natToDigitsAux, h]
  · rw [natToDigits, natToDigitsAux, if_neg h, if_neg h,
      natToDigitsAux_irrel n (n / 10 + 1) (n / 10)
        (Nat.div_lt_self (by omega) (by norm_num))
        (Nat.lt_succ_self _)]
    rfl

/-- JSON rendering of a signed integer (Rust `Display` for `i64`). -/
def serInt (x : Int) : List Nat :=
  if x < 0 then 45 :: natToDigits (-x).toNat else natToDigits x.toNat

/-- A JSON array of pre-rendered elements, comma separated. -/
def serArray (elems : List (List Nat)) : List Nat :=
  [91] ++ (List.intercalate [44] elems) ++ [93]

/-- One tag as a JSON array of strings. -/
def serTag (t : Tag) : List Nat := serArray (t.values.map serString)

/-- The tag list as a JSON array of arrays of strings. -/
def serTags (ts : List Tag) : List Nat := serArray (ts.map serTag)

/-- The canonical byte serialization hashed by `compute_event_hash`:
the compact JSON array `[0,pubkey,created_at,kind,tags,content]`. -/
def canonicalBytes (e : ProtoEvent) : List Nat :=
  [91, 48, 44] ++ serString e.pubkey ++ [44] ++ serInt e.created_at ++
    [44] ++ serInt e.kind ++ [44] ++ serTags e.tags ++ [44] ++
    serString e.content ++ [93]

/-! ### SHA-256 (FIPS 180-4, modelling the `sha2` crate) -/

/-- Right rotation of a 32-bit word. -/
def rotr (n x : Nat) : Nat := ((x >>> n) ||| (x <<< (32 - n))) % 2 ^ 32

/-- Bitwise complement of a 32-bit word. -/
def compl32 (x : Nat) : Nat := x ^^^ (2 ^ 32 - 1)

def bigSigma0 (x : Nat) : Nat := rotr 2 x ^^^ rotr 13 x ^^^ rotr 22 x
def bigSigma1 (x : Nat) : Nat := rotr 6 x ^^^ rotr 11 x ^^^ rotr 25 x
def smallSigma0 (x : Nat) : Nat := rotr 7 x ^^^ rotr 18 x ^^^ (x >>> 3)
def smallSigma1 (x : Nat) : Nat := rotr 17 x ^^^ rotr 19 x ^^^ (x >>> 10)
def ch (x y z : Nat) : Nat := (x &&& y) ^^^ (compl32 x &&& z)
def maj (x y z : Nat) : Nat := (x &&& y) ^^^ (x &&& z) ^^^ (y &&& z)

/-- The 64 SHA-256 round constants (FIPS 180-4 section 4.2.2, in
decimal). -/
def sha256K : List Nat :=
  [1116352408, 1899447441, 3049323471, 3921009573,
   961987163, 1508970993, 2453635748, 2870763221,
   3624381080, 310598401, 607225278, 1426881987,
   1925078388, 2162078206, 2614888103, 3248222580,
   3835390401, 4022224774, 264347078, 604807628,
   770255983, 1249150122, 1555081692, 1996064986,
   2554220882, 2821834349, 2952996808, 3210313671,
   3336571891, 3584528711, 113926993, 338241895,
   666307205, 773529912, 1294757372, 1396182291,
   1695183700, 1986661051, 2177026350, 2456956037,
   2730485921, 2820302411, 3259730800, 3345764771,
   3516065817, 3600352804, 4094571909, 275423344,
   430227734, 506948616, 659060556, 883997877,
   958139571, 1322822218, 1537002063, 1747873779,
   1955562222, 2024104815, 2227730452, 2361852424,
   2428436474, 2756734187, 3204031479, 3329325298]

/-- The SHA-256 initial hash value (FIPS 180-4 section 5.3.3, in
decimal). -/
def sha256H0 : List Nat :=
  [1779033703, 3144134277, 1013904242, 2773480762,
   1359893119, 2600822924, 528734635, 1541459225]

/-- Big-endian 8-byte rendering of the 64-bit message length. -/
def u64BE (n : Nat) : List Nat :=
  [n >>> 56 % 256, n >>> 48 % 256, n >>> 40 % 256, n >>> 32 % 256,
   n >>> 24 % 256, n >>> 16 % 256, n >>> 8 % 256, n % 256]

/-- Big-endian 4-byte rendering of a 32-bit word. -/
def wordBE (w : Nat) : List Nat :=
  [w >>> 24 % 256, w >>> 16 % 256, w >>> 8 % 256, w % 256]

/-- SHA-256 padding: a `0x80` byte, zeros to 56 mod 64, then the
bit length as a big-endian 64-bit integer. -/
def padMessage (msg : List Nat) : List Nat :=
  msg ++ [128] ++ List.replicate ((119 - msg.length % 64) % 64) 0 ++
    u64BE (8 * msg.length)

/-- Big-endian word value of (up to) four bytes. -/
def bytesToWord (b : List Nat) : Nat :=
  b.foldl (fun acc x => acc * 256 + x) 0

/-- Split a byte list into 4-byte groups. -/
def chunk4 : List Nat → List (List Nat)
  | a :: b :: c :: d :: rest => [a, b, c, d] :: chunk4 rest
  | [] => []
  | l => [l]

/-- Split the padded message into 64-byte blocks (`fuel` forces
structural termination; the byte count always suffices). -/
def splitBlocks : Nat → List Nat → List (List Nat)
  | 0, _ => []
  | _ + 1, [] => []
  | fuel + 1, bytes => bytes.take 64 :: splitBlocks fuel (bytes.drop 64)

/-- Extend the 16-word schedule by `k` more words. -/
def extendW : Nat → List Nat → List Nat
  | 0, w => w
  | k + 1, w =>
    let i := w.length
    let wi := (smallSigma1 (w.getD (i - 2) 0) + w.getD (i - 7) 0 +
      smallSigma0 (w.getD (i - 15) 0) + w.getD (i - 16) 0) % 2 ^ 32
    extendW k (w ++ [wi])

/-- One SHA-256 round on the eight-word working state. -/
def sha256Round (state : List Nat) (wi ki : Nat) : List Nat :=
  match state with
  | [a, b, c, d, e, f, g, h] =>
    let t1 := (h + bigSigma1 e + ch e f g + ki + wi) % 2 ^ 32
    let t2 := (bigSigma0 a + maj a b c) % 2 ^ 32
    [(t1 + t2) % 2 ^ 32, a, b, c, (d + t1) % 2 ^ 32, e, f, g]
  | s => s

/-- Compress one 64-byte block into the hash state. -/
def compressBlock (h : List Nat) (block : List Nat) : List Nat :=
  let w := extendW 48 ((chunk4 block).map bytesToWord)
  let final := (w.zip sha256K).foldl
    (fun st p => sha256Round st p.1 p.2) h
  h.zipWith (fun x y => (x + y) % 2 ^ 32) final

/-- SHA-256 of a byte sequence (FIPS 180-4). -/
def sha256 (msg : List Nat) : List Nat :=
  let padded := padMessage msg
  let finalH := (splitBlocks (padded.length + 1) padded).foldl
    compressBlock sha256H0
  (finalH.map wordBE).flatten

/-- `compute_event_hash` (`validation.rs` lines 106–127): serialize the
canonical array, then SHA-256. -/
def computeEventHash (e : ProtoEvent) : List Nat :=
  sha256 (canonicalBytes e)

/-- `hex::encode` (lower case). -/
def hexEncode (bytes : List Nat) : List Nat :=
  (bytes.map (fun b => [hexDigitChar (b / 16 % 16), hexDigitChar (b % 16)])).flatten

/-- `validate_event_id_from_hash` (`validation.rs` lines 133–145). -/
def validateEventIdFromHash (e : ProtoEvent) (hash : List Nat) :
    Except ValidationError Unit :=
  if hexEncode hash ≠ e.id then .error .eventIdMismatch else .ok ()


/-! ## Date-partitioned storage sink (`proton-beam-cli/src/storage.rs`)

`StorageManager::get_date_string` converts `created_at` with
`chrono::DateTime::<Utc>::from_timestamp` and formats it as
`%Y_%m_%d`.  `chrono` is modelled from its documentation: the
conversion succeeds exactly for seconds whose civil (proleptic
Gregorian, UTC) date lies in chrono's supported year range
`[-262143, 262142]`; the civil date itself is computed by the standard
days-to-civil algorithm. -/

/-- Largest timestamp accepted by `chrono`
(`+262142-12-31T23:59:59` UTC). -/
def chronoMaxTimestamp : Int := 8210266876799

/-- Smallest timestamp accepted by `chrono`
(`-262143-01-01T00:00:00` UTC). -/
def chronoMinTimestamp : Int := -8334601315200

/-- Civil (proleptic Gregorian) date of a day number relative to
1970-01-01: `(year, month, day)`. -/
def civilFromDays (z : Int) : Int × Nat × Nat :=
  let z' := z + 719468
  let era : Int := Int.ediv z' 146097
  let doe : Nat := (Int.emod z' 146097).toNat
  let yoe : Nat := (doe - doe / 1460 + doe / 36524 - doe / 146096) / 365
  let doy : Nat := doe - (365 * yoe + yoe / 4 - yoe / 100)
  let mp : Nat := (5 * doy + 2) / 153
  let d : Nat := doy - (153 * mp + 2) / 5 + 1
  let m : Nat := if mp < 10 then mp + 3 else mp - 9
  ((yoe : Int) + era * 400 + (if m ≤ 2 then 1 else 0), m, d)

/-- `chrono::DateTime::<Utc>::from_timestamp(ts, 0)` reduced to the
civil date: `none` exactly on chrono's out-of-range seconds. -/
def dateFromTimestamp (ts : Int) : Option (Int × Nat × Nat) :=
  if ts < chronoMinTimestamp ∨ chronoMaxTimestamp < ts then none
  else some (civilFromDays (Int.ediv ts 86400))

/-- Two-digit zero-padded decimal (chrono `%m` / `%d`). -/
def pad2 (n : Nat) : List Nat :=
  if n < 10 then [48, 48 + n] else natToDigits n

/-- Four-digit zero-padded year with sign (chrono `%Y`). -/
def pad4Year (y : Int) : List Nat :=
  let digits := natToDigits y.natAbs
  let padded := List.replicate (4 - digits.length) 48 ++ digits
  if y < 0 then 45 :: padded else padded

/-- `StorageManager::get_date_string` (`storage.rs` lines 227–236):
`YYYY_MM_DD`, or an error ("Invalid timestamp") when
`DateTime::from_timestamp` returns `None`. -/
def getDateString (e : ProtoEvent) : Except Unit (List Nat) :=
  match dateFromTimestamp e.created_at with
  | none => .error ()
  | some (y, m, d) => .ok (pad4Year y ++ [95] ++ pad2 m ++ [95] ++ pad2 d)

/-- The in-memory state of a `StorageManager`: the per-date buffers and
the per-date contents already flushed to the (kept-open) writers.  Both
maps are modelled as functions from the date key. -/
structure StorageState where
  buffers : List Nat → List ProtoEvent
  files : List Nat → List ProtoEvent

/-- A fresh `StorageManager`: no buffered and no written events. -/
def StorageState.empty : StorageState :=
  { buffers := fun _ => [], files := fun _ => [] }

/-- `StorageManager::flush_buffer` for one date: drain that date's
buffer into its (possibly newly created) writer. -/
def flushBuffer (st : StorageState) (date : List Nat) : StorageState :=
  { buffers := fun d => if d = date then [] else st.buffers d,
    files := fun d =>
      if d = date then st.files d ++ st.buffers d else st.files d }

/-- `StorageManager::store_event` (`storage.rs` lines 210–224): compute
the date key (an invalid timestamp is an error and nothing is
buffered), append to that date's buffer, and flush the buffer once it
reaches `batch_size`. -/
def storeEvent (batchSize : Nat) (st : StorageState) (e : ProtoEvent) :
    Except Unit StorageState :=
  match getDateString e with
  | .error _ => .error ()
  | .ok date =>
    let st' : StorageState :=
      { st with buffers := fun d =>
          if d = date then st.buffers date ++ [e] else st.buffers d }
    if batchSize ≤ (st'.buffers date).length then
      .ok (flushBuffer st' date)
    else .ok st'

/-- `StorageManager::flush` applied to one date key, then reading that
date's full contents (buffered or written). -/
def storedEventsFor (st : StorageState) (date : List Nat) :
    List ProtoEvent :=
  (flushBuffer st date).files date

/-- `ConversionStats` from `proton-beam-cli/src/main.rs` (lines
165–170).  Note its exact field list: there is no duplicate counter. -/
structure ConversionStats where
  total_lines : Nat
  valid_events : Nat
  invalid_events : Nat
  skipped_lines : Nat
deriving DecidableEq, Repr

/-- The per-line tail of the `convert_events` loop (`main.rs` lines
604–680) for a line that parsed into an event, with signature/id
validation disabled: run `validate_basic_fields`, then store; count the
line as valid or invalid accordingly. -/
def processParsedLine (batchSize : Nat)
    (st : StorageState) (stats : ConversionStats) (e : ProtoEvent) :
    StorageState × ConversionStats :=
  let stats := { stats with total_lines := stats.total_lines + 1 }
  match validateBasicFields e with
  | .error _ =>
    (st, { stats with invalid_events := stats.invalid_events + 1 })
  | .ok _ =>
    match storeEvent batchSize st e with
    | .ok st' =>
      (st', { stats with valid_events := stats.valid_events + 1 })
    | .error _ =>
      (st, { stats with invalid_events := stats.invalid_events + 1 })

/-- The `convert_events` loop over a list of already-parsed lines. -/
def convertParsedEvents (batchSize : Nat) (events : List ProtoEvent) :
    StorageState × ConversionStats :=
  events.foldl (fun (p : StorageState × ConversionStats) e =>
    processParsedLine batchSize p.1 p.2 e)
    (StorageState.empty, ⟨0, 0, 0, 0⟩)

/-! ## Merge-with-deduplication
(`merge_protobuf_files_with_dedup`, `main.rs` lines 1320–1424)

A source is either a file that fails to open (`Except.error`) or the
byte stream read through the gzip decoder; its frames are exactly the
items of `readEventsDelimited`. -/

/-- The result of one per-date merge: the events written to the fresh
temporary output (in write order) and the counters
`duplicate_count` / `corrupted_events` / `source_errors`. -/
structure MergeResult where
  written : List ProtoEvent
  duplicates : Nat
  corrupted : Nat
  sourceErrors : Nat
deriving Repr

/-- The inner frame loop of the merge: a corrupted frame is counted and
skipped, an already-seen id is counted as a duplicate and dropped, a
fresh id is inserted into the seen-set and written. -/
def mergeItems (seen : List (List Nat)) (out : List ProtoEvent)
    (dup corr : Nat) :
    List (Except DecodeError ProtoEvent) →
      List (List Nat) × List ProtoEvent × Nat × Nat
  | [] => (seen, out, dup, corr)
  | .error _ :: items => mergeItems seen out dup (corr + 1) items
  | .ok e :: items =>
    if e.id ∈ seen then mergeItems seen out (dup + 1) corr items
    else mergeItems (e.id :: seen) (out ++ [e]) dup corr items

/-- The outer source loop of the merge: a source that fails to open is
counted and skipped; otherwise its decoded frames are streamed through
`mergeItems`. -/
def mergeSources (seen : List (List Nat)) (out : List ProtoEvent)
    (dup corr srcErr : Nat) :
    List (Except Unit (List Nat)) →
      List (List Nat) × List ProtoEvent × Nat × Nat × Nat
  | [] => (seen, out, dup, corr, srcErr)
  | .error _ :: sources =>
    mergeSources seen out dup corr (srcErr + 1) sources
  | .ok bytes :: sources =>
    let r := mergeItems seen out dup corr (readEventsDelimited bytes)
    mergeSources r.1 r.2.1 r.2.2.1 r.2.2.2 srcErr sources

/-- `merge_protobuf_files_with_dedup` on the per-date source list
(staging files plus, when present, the prior final artifact). -/
def mergeProtobufFilesWithDedup (sources : List (Except Unit (List Nat))) :
    MergeResult :=
  let r := mergeSources [] [] 0 0 0 sources
  { written := r.2.1, duplicates := r.2.2.1, corrupted := r.2.2.2.1,
    sourceErrors := r.2.2.2.2 }

/-- The per-date loop of `merge_temp_files` (`main.rs` lines
1214–1246): each date is merged independently; a date whose merge
fails (I/O) is logged and skipped (`continue`), the loop goes on with
the remaining dates.  The possibility of a per-date I/O failure is
abstracted by the `fails` predicate. -/
def mergeTempFiles (fails : List Nat → Bool)
    (dates : List (List Nat × List (Except Unit (List Nat)))) :
    List (List Nat × Option MergeResult) :=
  dates.map (fun p =>
    (p.1, if fails p.1 then none
      else some (mergeProtobufFilesWithDedup p.2)))

/-! ## SQLite event index (`proton-beam-core/src/index.rs`)

The `events` table is modelled as an association list keyed by event
id; `INSERT OR IGNORE` under the `id` primary key is insert-if-absent. -/

/-- One row of the `events` table (apart from the `id` key). -/
structure IndexRecord where
  kind : Int
  pubkey : List Nat
  created_at : Int
  file_path : List Nat
  indexed_at : Int
deriving DecidableEq, Repr

/-- The `events` table. -/
abbrev EventsTable := List (List Nat × IndexRecord)

/-- `INSERT OR IGNORE INTO events ...` for one row. -/
def insertOrIgnore (tbl : EventsTable) (id : List Nat)
    (rec : IndexRecord) : EventsTable :=
  if tbl.any (fun row => row.1 = id) then tbl else tbl ++ [(id, rec)]

/-- `EventIndex::insert_batch` (`index.rs` lines 263–301): one
transaction executing `INSERT OR IGNORE` per `(event, file_path)` pair.
As in the source, the function returns no counts — its result value is
`()` — and the new table reflects either the whole batch or (on an
error, which the model cannot produce) none of it. -/
def insertBatch (tbl : EventsTable)
    (events : List (ProtoEvent × List Nat)) (indexedAt : Int) :
    EventsTable × Unit :=
  (events.foldl (fun t p =>
    insertOrIgnore t p.1.id
      ⟨p.1.kind, p.1.pubkey, p.1.created_at, p.2, indexedAt⟩) tbl, ())



/-- An event that passes basic-field validation but whose `created_at`
(`9 * 10 ^ 18` seconds) is outside chrono's supported range. -/
def farFutureEvent : ProtoEvent :=
  { id := List.replicate 64 97, pubkey := List.replicate 64 98,
    created_at := 9000000000000000000, kind := 1, tags := [],
    content := [], sig := List.replicate 128 99 }

/-! ## Supporting lemmas for the claims -/

/-- Well-formed frames followed by any remainder: the iterator yields
the framed events and then continues on the remainder. -/
theorem readEvents_append :
    ∀ (es : List ProtoEvent), (∀ e ∈ es, e.WF) → ∀ (rest : List Nat),
      readEventsDelimited (writeEventsDelimited es ++ rest) =
        es.map .ok ++ readEventsDelimited rest := by
  intro es
  induction es with
  | nil =>
    intro _ rest
    rw [writeEventsDelimited]
    simp
  | cons e es ih =>
    intro h rest
    rw [writeEventsDelimited, List.map_cons, List.flatten_cons,
      List.append_assoc, readEventsDelimited_eq,
      nextEvent_frame (h e (by simp))]
    dsimp only
    rw [← writeEventsDelimited, ih (fun x hx => h x (by simp [hx])) rest]
    rfl

/-- A nonempty run of at most nine continuation bytes at the end of the
stream is swallowed by `read_varint` as `UnexpectedEof`. -/
theorem readVarintLoop_continuation_eof :
    ∀ (bytes : List Nat) (shift acc : Nat),
      (∀ b ∈ bytes, b &&& 128 ≠ 0) → shift + 7 * bytes.length ≤ 63 →
      readVarintLoop bytes shift acc = .eof := by
  intro bytes
  induction bytes with
  | nil => intro shift acc _ _; rfl
  | cons b rest ih =>
    intro shift acc hb hlen
    simp only [List.length_cons] at hlen
    rw [readVarintLoop, if_neg (hb b (by simp)),
      if_neg (by omega : ¬ 64 ≤ shift + 7)]
    exact ih (shift + 7) _ (fun x hx => hb x (by simp [hx])) (by omega)


/-! ## Concrete test data -/

/-- The event used by `test_deduplication` in `proton-beam-cli/tests/integration_tests.rs` (id `859501…0528`, `created_at` 1758991030, i.e. date `2025_09_27`). -/
def testEvent1 : ProtoEvent :=
  { id := [56, 53, 57, 53, 48, 49, 56, 53, 52, 97, 48, 101, 50, 98, 54, 51, 51, 56, 51, 100, 98, 49, 56, 102, 49, 56, 55, 102, 56, 100, 50, 97, 55, 102, 57, 56, 56, 54, 53, 49, 55, 57, 51, 54, 56, 55, 50, 49, 53, 97, 54, 53, 52, 57, 102, 50, 100, 97, 51, 56, 48, 53, 50, 56],
    pubkey := [55, 55, 55, 54, 99, 51, 50, 100, 52, 98, 49, 100, 49, 101, 56, 98, 102, 50, 97, 57, 54, 98, 97, 98, 101, 98, 52, 51, 97, 100, 57, 97, 100, 101, 49, 53, 55, 98, 100, 51, 54, 51, 100, 56, 57, 98, 56, 55, 102, 98, 54, 51, 101, 54, 102, 49, 52, 53, 53, 53, 56, 56, 56, 56],
    created_at := 1758991030,
    kind := 7,
    tags := [⟨[[101], [52, 51, 102, 53, 54, 48, 54, 97, 48, 99, 101, 102, 102, 55, 48, 99, 52, 48, 56, 48, 48, 56, 53, 53, 102, 102, 99, 50, 52, 102, 50, 54, 57, 48, 100, 48, 52, 99, 57, 57, 100, 50, 56, 97, 55, 54, 99, 98, 100, 102, 100, 102, 101, 48, 99, 49, 54, 55, 51, 55, 100, 55, 98, 52]]⟩, ⟨[[112], [102, 57, 99, 56, 56, 51, 56, 55, 51, 54, 102, 53, 97, 48, 98, 54, 49, 49, 101, 100, 50, 99, 52, 53, 56, 97, 56, 97, 101, 55, 97, 52, 56, 48, 56, 48, 50, 101, 52, 101, 99, 51, 56, 101, 53, 50, 101, 57, 54, 52, 56, 51, 57, 56, 54, 99, 97, 52, 52, 99, 101, 54, 49, 50]]⟩],
    content := [],
    sig := [100, 54, 57, 51, 99, 99, 97, 54, 53, 97, 102, 55, 100, 102, 50, 54, 49, 57, 98, 101, 57, 48, 57, 48, 52, 50, 102, 53, 98, 49, 49, 97, 52, 101, 52, 98, 98, 101, 51, 50, 57, 51, 50, 100, 53, 97, 97, 54, 97, 99, 50, 50, 101, 98, 50, 48, 99, 54, 101, 48, 53, 53, 49, 97, 98, 54, 101, 51, 52, 54, 57, 48, 101, 100, 100, 99, 98, 99, 55, 54, 100, 56, 57, 51, 100, 54, 52, 101, 54, 48, 98, 54, 98, 102, 49, 99, 57, 56, 51, 56, 98, 48, 50, 100, 101, 97, 48, 101, 98, 49, 99, 48, 53, 98, 51, 56, 98, 50, 56, 97, 55, 48, 48, 48, 54, 49, 99, 102] }

/-- The second event of `test_deduplication_across_batches` in the same test file (id `56aa4f…36b7`). -/
def testEvent2 : ProtoEvent :=
  { id := [53, 54, 97, 97, 52, 102, 56, 49, 100, 102, 49, 57, 51, 98, 48, 56, 52, 101, 50, 99, 98, 56, 53, 102, 97, 49, 53, 53, 50, 101, 57, 52, 102, 49, 54, 50, 52, 54, 99, 54, 101, 98, 97, 54, 100, 98, 48, 49, 48, 56, 57, 49, 55, 50, 57, 98, 48, 50, 102, 52, 51, 54, 98, 55],
    pubkey := [48, 49, 100, 48, 98, 98, 102, 57, 53, 51, 55, 101, 102, 49, 102, 100, 48, 100, 100, 102, 56, 49, 53, 102, 52, 49, 99, 49, 56, 57, 54, 55, 51, 56, 102, 54, 97, 51, 97, 48, 102, 54, 48, 48, 102, 53, 49, 99, 55, 56, 50, 98, 55, 100, 56, 56, 57, 49, 49, 51, 48, 100, 52, 99],
    created_at := 1758991030,
    kind := 1,
    tags := [⟨[[101], [57, 57, 102, 52, 102, 50, 53, 57, 99, 51, 57, 48, 100, 51, 49, 52, 53, 49, 100, 52, 101, 98, 100, 98, 100, 100, 53, 48, 102, 54, 55, 51, 49, 97, 98, 98, 49, 55, 100, 50, 101, 51, 55, 52, 57, 98, 49, 100, 52, 55, 98, 51, 98, 99, 50, 53, 56, 52, 57, 51, 55, 54, 50, 48], [], [114, 111, 111, 116]]⟩, ⟨[[112], [57, 57, 99, 101, 102, 97, 54, 52, 53, 98, 48, 48, 56, 49, 55, 51, 55, 51, 50, 51, 57, 97, 101, 98, 98, 57, 54, 100, 50, 100, 49, 57, 57, 48, 50, 52, 52, 57, 57, 52, 101, 53, 101, 53, 54, 53, 53, 54, 54, 99, 56, 50, 99, 48, 52, 98, 56, 100, 99, 54, 53, 98, 53, 52]]⟩],
    content := [84, 101, 115, 116, 32, 99, 111, 110, 116, 101, 110, 116],
    sig := [56, 102, 102, 100, 54, 55, 56, 101, 48, 102, 98, 56, 99, 101, 53, 55, 52, 100, 49, 51, 50, 102, 98, 57, 56, 102, 51, 99, 51, 97, 102, 56, 97, 100, 57, 99, 51, 102, 102, 48, 48, 102, 50, 101, 97, 98, 54, 52, 98, 97, 98, 99, 48, 53, 101, 53, 97, 57, 56, 49, 99, 56, 49, 100, 97, 53, 97, 54, 97, 99, 98, 54, 57, 57, 99, 56, 48, 97, 99, 56, 53, 52, 55, 52, 49, 53, 53, 102, 54, 100, 102, 48, 57, 49, 55, 56, 53, 102, 55, 52, 53, 99, 53, 54, 99, 50, 100, 49, 57, 101, 55, 52, 51, 100, 57, 55, 97, 101, 53, 50, 55, 101, 55, 53, 48, 51, 57, 48] }

/-- The date key `2025_09_27` (the partition of `created_at`
1758991030), as a byte string. -/
def date20250927 : List Nat := [50, 48, 50, 53, 95, 48, 57, 95, 50, 55]


/-! ## The claims -/

/-- C4: for every sequence of well-formed events, writing them with the
length-delimited encoder and reading the produced bytes back with
`read_events_delimited` yields exactly the same events, preserving
order and count; a single encoded event decodes back to exactly that
one event, and an empty stream yields zero events. -/
theorem C4_codec_roundtrip (es : List ProtoEvent)
    (h : ∀ e ∈ es, e.WF) :
    readEventsDelimited (writeEventsDelimited es) = es.map Except.ok ∧
    (∀ e : ProtoEvent, e.WF →
      readEventsDelimited (writeEventDelimited e) = [Except.ok e]) ∧
    readEventsDelimited [] = [] := by
  refine ⟨readEvents_writeEvents es h, fun e he => ?_, rfl⟩
  have h1 := readEvents_writeEvents [e] (by simpa using he)
  simpa [writeEventsDelimited] using h1

/-- Witness for `C4_codec_roundtrip` at the two concrete test events. -/
theorem C4_codec_roundtrip_witness :
    (∀ e ∈ [testEvent1, testEvent2], ProtoEvent.WF e) ∧
    (readEventsDelimited (writeEventsDelimited [testEvent1, testEvent2]) =
        [testEvent1, testEvent2].map Except.ok ∧
      (∀ e : ProtoEvent, e.WF →
        readEventsDelimited (writeEventDelimited e) = [Except.ok e]) ∧
      readEventsDelimited [] = []) :=
  ⟨by decide, C4_codec_roundtrip [testEvent1, testEvent2] (by decide)⟩

/-- C6, counterexample: a truncated length prefix (a single
continuation byte, then end of stream) yields no error item — it is
byte-for-byte indistinguishable from a clean empty stream, refuting
"yields an error item on a truncated length prefix ... every such
failure is distinguishable from clean end-of-stream". -/
theorem C6_truncated_prefix_counterexample :
    readEventsDelimited [128] = [] ∧ readEventsDelimited [] = [] := by
  decide

/-- C6 as amended: the decoder yields no further item when the stream
ends cleanly at a frame boundary and also when it ends inside a length
prefix of at most nine continuation bytes (a truncated length prefix is
treated as clean end-of-stream); it yields an error item on a payload
shorter than its announced length and on a payload whose message
decoding fails, and in the latter case iteration continues behind the
bad frame. -/
theorem C6_stream_termination (es : List ProtoEvent) (rest : List Nat)
    (hwf : ∀ e ∈ es, e.WF) (hcont : ∀ b ∈ rest, b &&& 128 ≠ 0)
    (hlen : rest.length ≤ 9) :
    readEventsDelimited (writeEventsDelimited es ++ rest) =
      es.map Except.ok ∧
    (∀ (len : Nat) (tail : List Nat), len < 2 ^ 64 → tail.length < len →
      readEventsDelimited (encodeVarint len ++ tail) =
        [Except.error DecodeError.truncated]) ∧
    (∀ (payload tail : List Nat) (err : DecodeError),
      payload.length < 2 ^ 64 → decodeEvent payload = .error err →
      readEventsDelimited (encodeVarint payload.length ++ (payload ++ tail)) =
        Except.error err :: readEventsDelimited tail) := by
  refine ⟨?_, ?_, ?_⟩
  · rw [readEvents_append es hwf rest, readEventsDelimited_eq]
    have heof : readVarint rest = .eof :=
      readVarintLoop_continuation_eof rest 0 0 hcont (by omega)
    rw [show nextEvent rest = none from by unfold nextEvent; rw [heof]]
    simp
  · intro len tail hlen64 htail
    rw [readEventsDelimited_eq]
    have hn : nextEvent (encodeVarint len ++ tail) =
        some (.error .truncated, []) := by
      unfold nextEvent
      rw [readVarint_encodeVarint hlen64]
      dsimp only
      rw [if_neg (by omega)]
    rw [hn]
    rfl
  · intro payload tail err hp hdec
    rw [readEventsDelimited_eq]
    have hn : nextEvent (encodeVarint payload.length ++ (payload ++ tail)) =
        some (.error err, tail) := by
      unfold nextEvent
      rw [readVarint_encodeVarint hp]
      dsimp only
      rw [if_pos (by simp), List.take_left, List.drop_left, hdec]
    rw [hn]

/-- Witness for `C6_stream_termination`: one well-formed frame followed
by a lone continuation byte. -/
theorem C6_stream_termination_witness :
    ((∀ e ∈ [testEvent1], ProtoEvent.WF e) ∧
      (∀ b ∈ [(128 : Nat)], b &&& 128 ≠ 0) ∧ [(128 : Nat)].length ≤ 9) ∧
    readEventsDelimited (writeEventsDelimited [testEvent1] ++ [128]) =
      [testEvent1].map Except.ok :=
  ⟨⟨by decide, by decide, by decide⟩,
    (C6_stream_termination [testEvent1] [128] (by decide) (by decide)
      (by decide)).1⟩

/-- C5: the single-threaded conversion path stores every occurrence of
the same event and counts each as valid: three identical valid lines
produce `valid_events = 3` with all three copies written to the
`2025_09_27` partition, and `ConversionStats` (see its definition)
carries no duplicate counter at all — there is no `Duplicate` outcome
in this path. -/
theorem C5_all_duplicates_stored :
    (convertParsedEvents 1000 [testEvent1, testEvent1, testEvent1]).2 =
      ⟨3, 3, 0, 0⟩ ∧
    storedEventsFor
        (convertParsedEvents 1000 [testEvent1, testEvent1, testEvent1]).1
        date20250927 =
      [testEvent1, testEvent1, testEvent1] := by
  constructor
  · decide
  · decide


theorem findIdx_replicate_none :
    ∀ n : Nat, List.findIdx? (fun b => b = 10) (List.replicate n 97) = none := by
  intro n
  induction n with
  | zero => rfl
  | succ n ih => simp [List.replicate_succ, List.findIdx?_cons, ih]

/-- C3: evidence of the chunk-scheduler defect.  For a 16386-byte file
that is one single line of `a`s (no line terminator anywhere) and
`n = 2`, the scheduler returns the boundary 16385 — an internal
boundary that is neither immediately after a line terminator (byte
16384 of the file is `a`, not a newline) nor at end-of-file (16386) —
because its 8 KiB probe window past the midpoint contains no newline
and the code falls back to `bytes_read - 1`.  The record is split
across the two chunks. -/
theorem C3_long_line_split_boundary :
    findChunkBoundaries (List.replicate 16386 97) 2 =
      [(0, 16385), (16385, 16386)] ∧
    (List.replicate 16386 97).getD 16384 0 = 97 ∧ (97 : Nat) ≠ 10 ∧
    (16385 : Nat) ≠ 16386 := by
  refine ⟨?_, ?_, by norm_num, by norm_num⟩
  · rw [findChunkBoundaries]
    simp only [List.length_replicate]
    rw [if_neg (by norm_num), if_neg (by norm_num)]
    norm_num
    rw [show (1 : Nat) = 0 + 1 from rfl, findChunkBoundariesGo]
    simp only [List.drop_replicate, List.take_replicate,
      findIdx_replicate_none, List.length_replicate]
    norm_num
    rw [findChunkBoundariesGo]
    simp only [List.length_replicate]
  · rw [List.getD_eq_getElem?_getD, List.getElem?_replicate,
      if_pos (by norm_num)]
    rfl


/-- C8: evidence of the `insert_batch` divergence.  Re-insertion of an
already-present id (whether within the batch or pre-existing) is
silently ignored, and the whole batch is applied as one unit — but the
function's result value is `()` (mirroring the `Result<()>` of
`EventIndex::insert_batch` in `index.rs`), not the pair
`(inserted_count, duplicate_count)` the claim describes. -/
theorem C8_insert_batch_returns_unit :
    (∀ (tbl : EventsTable) (id : List Nat) (rec : IndexRecord),
      tbl.any (fun row => row.1 = id) → insertOrIgnore tbl id rec = tbl) ∧
    insertBatch []
        [(testEvent1, [97]), (testEvent1, [97]), (testEvent2, [98])] 7 =
      ([(testEvent1.id,
          ⟨testEvent1.kind, testEvent1.pubkey, testEvent1.created_at,
            [97], 7⟩),
        (testEvent2.id,
          ⟨testEvent2.kind, testEvent2.pubkey, testEvent2.created_at,
            [98], 7⟩)], ()) := by
  constructor
  · intro tbl id rec h
    rw [insertOrIgnore, if_pos h]
  · decide

/-- Witness for `C8_insert_batch_returns_unit`: re-inserting the id of
a one-row table leaves the table unchanged. -/
theorem C8_insert_batch_returns_unit_witness :
    ([(testEvent1.id,
        (⟨7, [1], 0, [97], 7⟩ : IndexRecord))] : EventsTable).any
      (fun row => row.1 = testEvent1.id) ∧
    insertOrIgnore [(testEvent1.id, (⟨7, [1], 0, [97], 7⟩ : IndexRecord))]
        testEvent1.id ⟨1, [2], 3, [98], 9⟩ =
      [(testEvent1.id, (⟨7, [1], 0, [97], 7⟩ : IndexRecord))] :=
  ⟨by decide,
    C8_insert_batch_returns_unit.1 _ _ _ (by decide)⟩

/-- C10: an event whose `created_at` is non-negative but outside the
range accepted by `chrono`'s timestamp conversion passes
`validate_basic_fields` (which accepts every non-negative `i64`
timestamp) yet `store_event` fails before buffering anything, and the
conversion loop counts the line as invalid (a storage error), leaving
the storage state untouched. -/
theorem C10_out_of_range_timestamp_is_storage_error
    (e : ProtoEvent) (bs : Nat) (st : StorageState)
    (stats : ConversionStats)
    (h0 : 0 ≤ e.created_at)
    (hrange : dateFromTimestamp e.created_at = none)
    (hid : e.id.length = 64) (hidhex : isHex e.id)
    (hpk : e.pubkey.length = 64) (hpkhex : isHex e.pubkey)
    (hsig : e.sig.length = 128) (hsighex : isHex e.sig)
    (hk0 : 0 ≤ e.kind) (hk1 : e.kind ≤ 65535) :
    validateBasicFields e = .ok () ∧
    storeEvent bs st e = .error () ∧
    processParsedLine bs st stats e =
      (st, { stats with total_lines := stats.total_lines + 1,
                        invalid_events := stats.invalid_events + 1 }) := by
  have hval : validateBasicFields e = .ok () := by
    unfold validateBasicFields
    rw [if_neg (by simp [hid, hidhex]), if_neg (by simp [hpk, hpkhex]),
      if_neg (by simp [hsig, hsighex]), if_neg (by omega),
      if_neg (by simp; omega)]
  have hstore : storeEvent bs st e = .error () := by
    unfold storeEvent getDateString
    rw [hrange]
  refine ⟨hval, hstore, ?_⟩
  unfold processParsedLine
  rw [hval]
  dsimp only
  rw [hstore]

/-- Witness for `C10_out_of_range_timestamp_is_storage_error`: an event
with `created_at = 9 * 10 ^ 18` (within `i64`, far beyond chrono's
`8210266876799`). -/
theorem C10_witness :
    (0 ≤ farFutureEvent.created_at ∧
      dateFromTimestamp farFutureEvent.created_at = none ∧
      validateBasicFields farFutureEvent = .ok ()) ∧
    storeEvent 1000 StorageState.empty farFutureEvent = .error () :=
  ⟨⟨by decide, by decide,
      (C10_out_of_range_timestamp_is_storage_error farFutureEvent 1000
        StorageState.empty ⟨0, 0, 0, 0⟩ (by decide) (by decide) (by decide)
        (by decide) (by decide) (by decide) (by decide) (by decide)
        (by decide) (by decide)).1⟩,
    (C10_out_of_range_timestamp_is_storage_error farFutureEvent 1000
      StorageState.empty ⟨0, 0, 0, 0⟩ (by decide) (by decide) (by decide)
      (by decide) (by decide) (by decide) (by decide) (by decide)
      (by decide) (by decide)).2.1⟩


/-- The events successfully decoded from a list of merge sources, in
stream order. -/
def decodedEvents (sources : List (Except Unit (List Nat))) :
    List ProtoEvent :=
  ((sources.filterMap Except.toOption).map readEventsDelimited).flatten.filterMap
    Except.toOption

/-- Invariant of the merge frame loop: the seen-set and the output
stay in sync, output ids stay distinct, the output ids grow by exactly
the decoded ids, write/duplicate counts account for every decoded
event, and the corrupted counter counts exactly the error frames. -/
theorem mergeItems_spec :
    ∀ (items : List (Except DecodeError ProtoEvent))
      (seen : List (List Nat)) (out : List ProtoEvent) (dup corr : Nat),
      (∀ id, id ∈ seen ↔ id ∈ out.map ProtoEvent.id) →
      (out.map ProtoEvent.id).Nodup →
      ((∀ id, id ∈ (mergeItems seen out dup corr items).1 ↔
          id ∈ (mergeItems seen out dup corr items).2.1.map ProtoEvent.id) ∧
        ((mergeItems seen out dup corr items).2.1.map ProtoEvent.id).Nodup ∧
        (∀ id, id ∈ (mergeItems seen out dup corr items).2.1.map ProtoEvent.id ↔
          id ∈ out.map ProtoEvent.id ∨
            id ∈ (items.filterMap Except.toOption).map ProtoEvent.id) ∧
        (mergeItems seen out dup corr items).2.1.length +
            (mergeItems seen out dup corr items).2.2.1 =
          out.length + dup + (items.filterMap Except.toOption).length ∧
        (mergeItems seen out dup corr items).2.2.2 =
          corr + items.countP (fun i => !i.isOk)) := by
  intro items
  induction items with
  | nil =>
    intro seen out dup corr hseen hnodup
    refine ⟨hseen, hnodup, ?_, by simp [mergeItems], by simp [mergeItems]⟩
    simp [mergeItems]
  | cons item items ih =>
    intro seen out dup corr hseen hnodup
    match item with
    | .error err =>
      have h := ih seen out dup (corr + 1) hseen hnodup
      refine ⟨h.1, h.2.1, ?_, ?_, ?_⟩
      · simpa [mergeItems, Except.toOption] using h.2.2.1
      · simpa [mergeItems, Except.toOption] using h.2.2.2.1
      · have := h.2.2.2.2
        simp only [mergeItems] at this ⊢
        rw [this]
        simp [Except.isOk, Except.toBool]
        omega
    | .ok e =>
      by_cases hmem : e.id ∈ seen
      · have h := ih seen out (dup + 1) corr hseen hnodup
        have hout : e.id ∈ out.map ProtoEvent.id := (hseen e.id).1 hmem
        refine ⟨?_, ?_, ?_, ?_, ?_⟩
        · simpa [mergeItems, hmem] using h.1
        · simpa [mergeItems, hmem] using h.2.1
        · intro id
          have h3 := h.2.2.1 id
          simp only [mergeItems, if_pos hmem] at h3 ⊢
          rw [h3]
          simp only [List.filterMap_cons, Except.toOption, List.map_cons,
            List.mem_cons]
          constructor
          · intro hc
            rcases hc with hc | hc
            · exact Or.inl hc
            · exact Or.inr (Or.inr hc)
          · intro hc
            rcases hc with hc | hc | hc
            · exact Or.inl hc
            · rw [hc]; exact Or.inl hout
            · exact Or.inr hc
        · have h4 := h.2.2.2.1
          simp only [mergeItems, if_pos hmem] at h4 ⊢
          rw [h4]
          simp [Except.toOption]
          omega
        · have h5 := h.2.2.2.2
          simp only [mergeItems, if_pos hmem] at h5 ⊢
          rw [h5]
          simp [Except.isOk, Except.toBool]
      · have hnotout : e.id ∉ out.map ProtoEvent.id :=
          fun hc => hmem ((hseen e.id).2 hc)
        have hseen' : ∀ id, id ∈ e.id :: seen ↔
            id ∈ (out ++ [e]).map ProtoEvent.id := by
          intro id
          simp only [List.mem_cons, List.map_append, List.map_cons,
            List.map_nil, List.mem_append, List.mem_singleton]
          rw [hseen id]
          tauto
        have hnodup' : ((out ++ [e]).map ProtoEvent.id).Nodup := by
          simp only [List.map_append, List.map_cons, List.map_nil]
          rw [List.nodup_append]
          exact ⟨hnodup, List.nodup_singleton _,
            by simpa using fun hc => hnotout hc⟩
        have h := ih (e.id :: seen) (out ++ [e]) dup corr hseen' hnodup'
        refine ⟨?_, ?_, ?_, ?_, ?_⟩
        · simpa [mergeItems, hmem] using h.1
        · simpa [mergeItems, hmem] using h.2.1
        · intro id
          have h3 := h.2.2.1 id
          simp only [mergeItems, if_neg hmem] at h3 ⊢
          rw [h3]
          simp only [List.filterMap_cons, Except.toOption, List.map_append,
            List.map_cons, List.map_nil, List.mem_append, List.mem_cons,
            List.mem_singleton]
          tauto
        · have h4 := h.2.2.2.1
          simp only [mergeItems, if_neg hmem] at h4 ⊢
          rw [h4]
          simp [Except.toOption]
          omega
        · have h5 := h.2.2.2.2
          simp only [mergeItems, if_neg hmem] at h5 ⊢
          rw [h5]
          simp [Except.isOk, Except.toBool]


/-- Invariant of the merge source loop, composing `mergeItems_spec`
across sources: output ids stay distinct and grow by exactly the
decoded ids, counts are additive, and the source-error counter counts
exactly the sources that failed to open. -/
theorem mergeSources_spec :
    ∀ (sources : List (Except Unit (List Nat)))
      (seen : List (List Nat)) (out : List ProtoEvent)
      (dup corr srcErr : Nat),
      (∀ id, id ∈ seen ↔ id ∈ out.map ProtoEvent.id) →
      (out.map ProtoEvent.id).Nodup →
      (((mergeSources seen out dup corr srcErr sources).2.1.map
          ProtoEvent.id).Nodup ∧
        (∀ id,
          id ∈ (mergeSources seen out dup corr srcErr sources).2.1.map
              ProtoEvent.id ↔
            id ∈ out.map ProtoEvent.id ∨
              id ∈ (decodedEvents sources).map ProtoEvent.id) ∧
        (mergeSources seen out dup corr srcErr sources).2.1.length +
            (mergeSources seen out dup corr srcErr sources).2.2.1 =
          out.length + dup + (decodedEvents sources).length ∧
        (mergeSources seen out dup corr srcErr sources).2.2.2.1 =
          corr + ((sources.filterMap Except.toOption).map
              readEventsDelimited).flatten.countP (fun i => !i.isOk) ∧
        (mergeSources seen out dup corr srcErr sources).2.2.2.2 =
          srcErr + sources.countP (fun s => !s.isOk) ∧
        (∀ id, id ∈ (mergeSources seen out dup corr srcErr sources).1 ↔
          id ∈ (mergeSources seen out dup corr srcErr sources).2.1.map
            ProtoEvent.id)) := by
  intro sources
  induction sources with
  | nil =>
    intro seen out dup corr srcErr hseen hnodup
    refine ⟨hnodup, ?_, ?_, ?_, ?_, ?_⟩ <;>
      simp [mergeSources, decodedEvents, hseen]
  | cons src sources ih =>
    intro seen out dup corr srcErr hseen hnodup
    match src with
    | .error e =>
      have h := ih seen out dup corr (srcErr + 1) hseen hnodup
      refine ⟨?_, ?_, ?_, ?_, ?_, ?_⟩
      · simpa [mergeSources] using h.1
      · simpa [mergeSources, decodedEvents, Except.toOption] using h.2.1
      · simpa [mergeSources, decodedEvents, Except.toOption] using h.2.2.1
      · simpa [mergeSources, Except.toOption] using h.2.2.2.1
      · have h5 := h.2.2.2.2.1
        simp only [mergeSources] at h5 ⊢
        rw [h5]
        simp [Except.isOk, Except.toBool]
        omega
      · simpa [mergeSources] using h.2.2.2.2.2
    | .ok bytes =>
      have hi := mergeItems_spec (readEventsDelimited bytes) seen out dup corr
        hseen hnodup
      set r := mergeItems seen out dup corr (readEventsDelimited bytes) with hr
      have h := ih r.1 r.2.1 r.2.2.1 r.2.2.2 srcErr hi.1 hi.2.1
      have hdec : decodedEvents (.ok bytes :: sources) =
          (readEventsDelimited bytes).filterMap Except.toOption ++
            decodedEvents sources := by
        simp [decodedEvents, Except.toOption]
      refine ⟨?_, ?_, ?_, ?_, ?_, ?_⟩
      · simpa [mergeSources] using h.1
      · intro id
        have h2 := h.2.1 id
        have hi3 := hi.2.2.1 id
        simp only [mergeSources] at h2 ⊢
        rw [h2, hdec]
        simp only [List.map_append, List.mem_append]
        rw [hi3]
        tauto
      · have h3 := h.2.2.1
        simp only [mergeSources] at h3 ⊢
        rw [h3, hdec, hi.2.2.2.1]
        simp only [List.length_append]
        omega
      · have h4 := h.2.2.2.1
        simp only [mergeSources] at h4 ⊢
        rw [h4, hi.2.2.2.2]
        simp only [List.filterMap_cons, Except.toOption, List.map_cons,
          List.flatten_cons, List.countP_append]
        omega
      · have h5 := h.2.2.2.2.1
        simp only [mergeSources] at h5 ⊢
        rw [h5]
        simp [Except.isOk, Except.toBool]
      · simpa [mergeSources] using h.2.2.2.2.2


/-- Shifting the initial source-error counter shifts only the final
source-error count. -/
theorem mergeSources_srcErr_add :
    ∀ (l : List (Except Unit (List Nat))) (seen : List (List Nat))
      (out : List ProtoEvent) (dup corr srcErr k : Nat),
      mergeSources seen out dup corr (srcErr + k) l =
        ((mergeSources seen out dup corr srcErr l).1,
          (mergeSources seen out dup corr srcErr l).2.1,
          (mergeSources seen out dup corr srcErr l).2.2.1,
          (mergeSources seen out dup corr srcErr l).2.2.2.1,
          (mergeSources seen out dup corr srcErr l).2.2.2.2 + k) := by
  intro l
  induction l with
  | nil => intro seen out dup corr srcErr k; simp [mergeSources]
  | cons src l ih =>
    intro seen out dup corr srcErr k
    match src with
    | .error e =>
      simp only [mergeSources]
      rw [show srcErr + k + 1 = (srcErr + 1) + k by omega, ih]
    | .ok bytes =>
      simp only [mergeSources]
      rw [ih]

/-- A source that fails to open is counted and skipped: removing it
from the source list leaves every component of the merge result
unchanged except the source-error counter, which drops by one. -/
theorem mergeSources_skip_error :
    ∀ (s1 : List (Except Unit (List Nat))) (s2 : List (Except Unit (List Nat)))
      (e : Unit) (seen : List (List Nat)) (out : List ProtoEvent)
      (dup corr srcErr : Nat),
      mergeSources seen out dup corr srcErr (s1 ++ .error e :: s2) =
        ((mergeSources seen out dup corr srcErr (s1 ++ s2)).1,
          (mergeSources seen out dup corr srcErr (s1 ++ s2)).2.1,
          (mergeSources seen out dup corr srcErr (s1 ++ s2)).2.2.1,
          (mergeSources seen out dup corr srcErr (s1 ++ s2)).2.2.2.1,
          (mergeSources seen out dup corr srcErr (s1 ++ s2)).2.2.2.2 + 1) := by
  intro s1
  induction s1 with
  | nil =>
    intro s2 e seen out dup corr srcErr
    simp only [List.nil_append, mergeSources]
    rw [show srcErr + 1 = srcErr + 1 from rfl, mergeSources_srcErr_add]
  | cons src s1 ih =>
    intro s2 e seen out dup corr srcErr
    match src with
    | .error e2 =>
      simp only [List.cons_append, mergeSources, List.append_eq]
      rw [ih]
    | .ok bytes =>
      simp only [List.cons_append, mergeSources, List.append_eq]
      rw [ih]


/-- C2: for every list of per-date staging sources, the merged output
written by `merge_protobuf_files_with_dedup` contains exactly one event
per distinct id among the successfully decoded input events — its ids
are pairwise distinct and are exactly the ids of the decoded events —
and the written count plus the duplicate count equals the total number
of successfully decoded input events. -/
theorem C2_merge_dedup (sources : List (Except Unit (List Nat))) :
    ((mergeProtobufFilesWithDedup sources).written.map ProtoEvent.id).Nodup ∧
    (∀ id,
      id ∈ (mergeProtobufFilesWithDedup sources).written.map ProtoEvent.id ↔
        id ∈ (decodedEvents sources).map ProtoEvent.id) ∧
    (mergeProtobufFilesWithDedup sources).written.length +
        (mergeProtobufFilesWithDedup sources).duplicates =
      (decodedEvents sources).length := by
  have h := mergeSources_spec sources [] [] 0 0 0 (by simp) (by simp)
  refine ⟨h.1, ?_, ?_⟩
  · intro id
    have h2 := h.2.1 id
    simpa [mergeProtobufFilesWithDedup] using h2
  · have h3 := h.2.2.1
    simpa [mergeProtobufFilesWithDedup] using h3

/-- C9: merge-stage error handling.  (a) A source that fails to open is
counted (`sourceErrors` is exactly the number of unopenable sources)
and skipped: deleting it from the source list changes nothing but that
counter.  (b) A frame that fails to decode mid-stream is counted
(`corrupted` is exactly the number of error frames across all opened
sources) and the frame loop continues past it.  (c) Dates are merged
independently: each date's result in `merge_temp_files` is a function
of that date's own sources alone, so a failure merging one date leaves
every other date's merge result unchanged. -/
theorem C9_merge_error_handling :
    (∀ (sources : List (Except Unit (List Nat))),
      (mergeProtobufFilesWithDedup sources).sourceErrors =
        sources.countP (fun s => !s.isOk) ∧
      (mergeProtobufFilesWithDedup sources).corrupted =
        ((sources.filterMap Except.toOption).map
          readEventsDelimited).flatten.countP (fun i => !i.isOk)) ∧
    (∀ (s1 s2 : List (Except Unit (List Nat))) (e : Unit),
      (mergeProtobufFilesWithDedup (s1 ++ .error e :: s2)).written =
          (mergeProtobufFilesWithDedup (s1 ++ s2)).written ∧
        (mergeProtobufFilesWithDedup (s1 ++ .error e :: s2)).duplicates =
          (mergeProtobufFilesWithDedup (s1 ++ s2)).duplicates ∧
        (mergeProtobufFilesWithDedup (s1 ++ .error e :: s2)).corrupted =
          (mergeProtobufFilesWithDedup (s1 ++ s2)).corrupted ∧
        (mergeProtobufFilesWithDedup (s1 ++ .error e :: s2)).sourceErrors =
          (mergeProtobufFilesWithDedup (s1 ++ s2)).sourceErrors + 1) ∧
    (∀ (seen : List (List Nat)) (out : List ProtoEvent)
        (dup corr : Nat) (err : DecodeError)
        (items : List (Except DecodeError ProtoEvent)),
      mergeItems seen out dup corr (.error err :: items) =
        mergeItems seen out dup (corr + 1) items) ∧
    (∀ (fails : List Nat → Bool)
        (dates : List (List Nat × List (Except Unit (List Nat))))
        (p : List Nat × List (Except Unit (List Nat))),
      p ∈ dates →
        (p.1, if fails p.1 then none
          else some (mergeProtobufFilesWithDedup p.2)) ∈
          mergeTempFiles fails dates) := by
  refine ⟨?_, ?_, ?_, ?_⟩
  · intro sources
    have h := mergeSources_spec sources [] [] 0 0 0 (by simp) (by simp)
    exact ⟨by simpa [mergeProtobufFilesWithDedup] using h.2.2.2.2.1,
      by simpa [mergeProtobufFilesWithDedup] using h.2.2.2.1⟩
  · intro s1 s2 e
    have h := mergeSources_skip_error s1 s2 e [] [] 0 0 0
    refine ⟨?_, ?_, ?_, ?_⟩ <;>
      simp [mergeProtobufFilesWithDedup, h]
  · intro seen out dup corr err items
    rfl
  · intro fails dates p hp
    exact List.mem_map_of_mem _ hp

/-- Witness for C9: a concrete merge run with one unopenable source,
one corrupted frame and one duplicated event among two dates. -/
theorem C9_merge_error_handling_witness :
    ((mergeProtobufFilesWithDedup
        [.error (), .ok (writeEventsDelimited [ProtoEvent.default])]).sourceErrors =
      [Except.error (), Except.ok
          (writeEventsDelimited [ProtoEvent.default])].countP
        (fun s => !s.isOk)) ∧
    (ProtoEvent.default.id,
        some (mergeProtobufFilesWithDedup [])) ∈
      mergeTempFiles (fun _ => false) [(ProtoEvent.default.id, [])] :=
  ⟨(C9_merge_error_handling.1 _).1,
    C9_merge_error_handling.2.2.2 (fun _ => false)
      [(ProtoEvent.default.id, [])] (ProtoEvent.default.id, []) (by simp)⟩


/-! ## A reference parser for the canonical serialization

To settle the injectivity half of the hashing claim we build a parser
that inverts `canonicalBytes` and prove the roundtrip; two events with
equal canonical serializations then parse to equal field tuples. -/

/-- Value of one lower-case hexadecimal digit byte. -/
def hexVal (c : Nat) : Option Nat :=
  if 48 ≤ c ∧ c ≤ 57 then some (c - 48)
  else if 97 ≤ c ∧ c ≤ 102 then some (c - 87)
  else none

/-- Value of one escape sequence (the bytes after a backslash):
returns the unescaped byte and the remaining input. -/
def unescape : List Nat → Option (Nat × List Nat)
  | [] => none
  | c :: rest =>
    if c = 34 then some (34, rest)
    else if c = 92 then some (92, rest)
    else if c = 98 then some (8, rest)
    else if c = 116 then some (9, rest)
    else if c = 110 then some (10, rest)
    else if c = 102 then some (12, rest)
    else if c = 114 then some (13, rest)
    else if c = 117 then
      if 4 ≤ rest.length ∧ rest.take 2 = [48, 48] then
        match hexVal (rest.getD 2 0), hexVal (rest.getD 3 0) with
        | some v1, some v2 => some (16 * v1 + v2, rest.drop 4)
        | _, _ => none
      else none
    else none

/-- Inverse of the string escaping: consume escaped bytes up to the
closing unescaped quote, returning the unescaped bytes and the rest
(`fuel` forces structural termination; the input length suffices). -/
def parseStringBodyF : Nat → List Nat → Option (List Nat × List Nat)
  | 0, _ => none
  | fuel + 1, l =>
    match l with
    | [] => none
    | b :: rest =>
      if b = 34 then some ([], rest)
      else if b = 92 then
        match unescape rest with
        | none => none
        | some (u, rest2) =>
          (parseStringBodyF fuel rest2).map fun p => (u :: p.1, p.2)
      else (parseStringBodyF fuel rest).map fun p => (b :: p.1, p.2)

/-- A JSON string literal: opening quote, body, closing quote. -/
def parseStr (fuel : Nat) (l : List Nat) : Option (List Nat × List Nat) :=
  match l with
  | [] => none
  | b :: rest => if b = 34 then parseStringBodyF fuel rest else none

theorem hexVal_hexDigitChar (n : Nat) (h : n < 16) :
    hexVal (hexDigitChar n) = some n := by
  unfold hexVal hexDigitChar
  by_cases h10 : n < 10
  · rw [if_pos h10, if_pos ⟨by omega, by omega⟩]
    simp only [Option.some.injEq]
    omega
  · rw [if_neg h10, if_neg (by omega), if_pos ⟨by omega, by omega⟩]
    simp only [Option.some.injEq]
    omega

/-- Every escaped byte is either copied verbatim or rendered as a
backslash sequence that `unescape` inverts. -/
theorem escapeByte_cases (b : Nat) :
    (escapeByte b = [b] ∧ b ≠ 34 ∧ b ≠ 92) ∨
    (∃ seq, escapeByte b = 92 :: seq ∧
      ∀ tail, unescape (seq ++ tail) = some (b, tail)) := by
  by_cases h34 : b = 34
  · subst h34
    exact Or.inr ⟨[34], by simp [escapeByte], fun tail => by simp [unescape]⟩
  by_cases h92 : b = 92
  · subst h92
    exact Or.inr ⟨[92], by simp [escapeByte], fun tail => by simp [unescape]⟩
  by_cases h8 : b = 8
  · subst h8
    exact Or.inr ⟨[98], by simp [escapeByte], fun tail => by simp [unescape]⟩
  by_cases h9 : b = 9
  · subst h9
    exact Or.inr ⟨[116], by simp [escapeByte], fun tail => by simp [unescape]⟩
  by_cases h10 : b = 10
  · subst h10
    exact Or.inr ⟨[110], by simp [escapeByte], fun tail => by simp [unescape]⟩
  by_cases h12 : b = 12
  · subst h12
    exact Or.inr ⟨[102], by simp [escapeByte], fun tail => by simp [unescape]⟩
  by_cases h13 : b = 13
  · subst h13
    exact Or.inr ⟨[114], by simp [escapeByte], fun tail => by simp [unescape]⟩
  by_cases hlt : b < 32
  · refine Or.inr ⟨[117, 48, 48, hexDigitChar (b / 16), hexDigitChar (b % 16)],
      by simp [escapeByte, h34, h92, h8, h9, h10, h12, h13, hlt],
      fun tail => ?_⟩
    have hv1 : hexVal (hexDigitChar (b / 16)) = some (b / 16) :=
      hexVal_hexDigitChar _ (by omega)
    have hv2 : hexVal (hexDigitChar (b % 16)) = some (b % 16) :=
      hexVal_hexDigitChar _ (by omega)
    simp [unescape, hv1, hv2, Nat.div_add_mod]
  · exact Or.inl ⟨by simp [escapeByte, h34, h92, h8, h9, h10, h12, h13, hlt],
      h34, h92⟩

theorem parseStringBodyF_round :
    ∀ (s : List Nat) (fuel : Nat) (rest : List Nat), s.length < fuel →
      parseStringBodyF fuel ((s.map escapeByte).flatten ++ 34 :: rest) =
        some (s, rest) := by
  intro s
  induction s with
  | nil =>
    intro fuel rest hf
    cases fuel with
    | zero => omega
    | succ f => simp [parseStringBodyF]
  | cons b s ih =>
    intro fuel rest hf
    cases fuel with
    | zero => simp at hf
    | succ f =>
      simp only [List.map_cons, List.flatten_cons, List.append_assoc]
      rcases escapeByte_cases b with ⟨he, hb34, hb92⟩ | ⟨seq, he, hu⟩
      · rw [he]
        simp only [List.cons_append, List.nil_append, parseStringBodyF,
          if_neg hb34, if_neg hb92]
        rw [ih f rest (by simp at hf; omega)]
        rfl
      · rw [he]
        simp only [List.cons_append, parseStringBodyF, List.append_assoc]
        rw [if_neg (show ¬(92 : Nat) = 34 by norm_num)]
        simp only [if_true]
        rw [hu]
        dsimp only
        rw [ih f rest (by simp at hf; omega)]
        rfl

theorem parseStr_round (s rest : List Nat) (fuel : Nat)
    (h : s.length < fuel) :
    parseStr fuel (serString s ++ rest) = some (s, rest) := by
  simp only [serString, List.append_assoc, List.cons_append, List.nil_append,
    List.singleton_append]
  simp only [parseStr, if_pos rfl]
  exact parseStringBodyF_round s fuel rest h

/-- Maximal run of decimal digit bytes. -/
def parseDigits : List Nat → List Nat × List Nat
  | [] => ([], [])
  | b :: rest =>
    if 48 ≤ b ∧ b ≤ 57 then
      (b :: (parseDigits rest).1, (parseDigits rest).2)
    else ([], b :: rest)

/-- Value of a digit run, most significant first. -/
def digitsToNat (ds : List Nat) : Nat :=
  ds.foldl (fun a d => 10 * a + (d - 48)) 0

/-- A JSON integer: optional minus sign, then a nonempty digit run. -/
def parseInt (l : List Nat) : Option (Int × List Nat) :=
  match l with
  | [] => none
  | b :: rest =>
    if b = 45 then
      if (parseDigits rest).1 = [] then none
      else some (-(digitsToNat (parseDigits rest).1 : Int),
        (parseDigits rest).2)
    else
      if (parseDigits (b :: rest)).1 = [] then none
      else some ((digitsToNat (parseDigits (b :: rest)).1 : Int),
        (parseDigits (b :: rest)).2)

theorem natToDigits_mem (n : Nat) :
    ∀ d ∈ natToDigits n, 48 ≤ d ∧ d ≤ 57 := by
  induction n using Nat.strong_induction_on with
  | _ n ih =>
    intro d hd
    rw [natToDigits_eq] at hd
    by_cases h : n < 10
    · rw [if_pos h] at hd
      simp only [List.mem_singleton] at hd
      omega
    · rw [if_neg h] at hd
      rcases List.mem_append.1 hd with hd | hd
      · exact ih (n / 10) (Nat.div_lt_self (by omega) (by norm_num)) d hd
      · simp only [List.mem_singleton] at hd
        have := Nat.mod_lt n (show 0 < 10 by norm_num)
        omega

theorem natToDigits_ne_nil (n : Nat) : natToDigits n ≠ [] := by
  rw [natToDigits_eq]
  by_cases h : n < 10
  · simp [h]
  · simp [h]

theorem digitsToNat_natToDigits (n : Nat) :
    digitsToNat (natToDigits n) = n := by
  induction n using Nat.strong_induction_on with
  | _ n ih =>
    rw [natToDigits_eq]
    by_cases h : n < 10
    · rw [if_pos h]
      simp only [digitsToNat, List.foldl_cons, List.foldl_nil]
      omega
    · rw [if_neg h]
      simp only [digitsToNat, List.foldl_append, List.foldl_cons,
        List.foldl_nil]
      have := ih (n / 10) (Nat.div_lt_self (by omega) (by norm_num))
      simp only [digitsToNat] at this
      rw [this]
      omega

theorem parseDigits_spec :
    ∀ (ds : List Nat) (b : Nat) (l : List Nat),
      (∀ d ∈ ds, 48 ≤ d ∧ d ≤ 57) → ¬(48 ≤ b ∧ b ≤ 57) →
      parseDigits (ds ++ b :: l) = (ds, b :: l) := by
  intro ds
  induction ds with
  | nil => intro b l _ hb; simp [parseDigits, hb]
  | cons d ds ih =>
    intro b l hds hb
    have hd := hds d (List.mem_cons_self _ _)
    simp only [List.cons_append, parseDigits, if_pos hd, List.append_eq]
    rw [ih b l (fun x hx => hds x (List.mem_cons_of_mem _ hx)) hb]

theorem parseInt_round (x : Int) (b : Nat) (rest : List Nat)
    (hb : ¬(48 ≤ b ∧ b ≤ 57)) :
    parseInt (serInt x ++ b :: rest) = some (x, b :: rest) := by
  by_cases hx : x < 0
  · have hds := parseDigits_spec (natToDigits (-x).toNat) b rest
      (natToDigits_mem _) hb
    simp only [serInt, if_pos hx, List.cons_append, parseInt, if_pos rfl,
      hds, natToDigits_ne_nil, if_neg (natToDigits_ne_nil _),
      digitsToNat_natToDigits, Option.some.injEq, Prod.mk.injEq, if_true,
      if_false]
    exact ⟨by omega, trivial⟩
  · obtain ⟨d, ds, hd⟩ : ∃ d ds, natToDigits x.toNat = d :: ds := by
      cases h : natToDigits x.toNat with
      | nil => exact absurd h (natToDigits_ne_nil _)
      | cons d ds => exact ⟨d, ds, rfl⟩
    have hmem := natToDigits_mem x.toNat
    rw [hd] at hmem
    have hd45 : d ≠ 45 := by
      have := hmem d (List.mem_cons_self _ _)
      omega
    have hds := parseDigits_spec (natToDigits x.toNat) b rest
      (natToDigits_mem _) hb
    rw [hd] at hds
    simp only [List.cons_append] at hds
    simp only [serInt, if_neg hx, hd, List.cons_append, parseInt,
      if_neg hd45, hds, if_neg (by simp : ¬(d :: ds = [])),
      Option.some.injEq, Prod.mk.injEq]
    have : digitsToNat (d :: ds) = x.toNat := by
      rw [← hd]; exact digitsToNat_natToDigits _
    rw [this]
    refine ⟨by omega, ?_⟩
    trivial


/-- Comma-separated concatenation, a recursion-friendly rendering of
`List.intercalate [44]`. -/
def sepConcat : List (List Nat) → List Nat
  | [] => []
  | [x] => x
  | x :: y :: t => x ++ 44 :: sepConcat (y :: t)

theorem intercalate_eq_sepConcat :
    ∀ l : List (List Nat), List.intercalate [44] l = sepConcat l := by
  intro l
  induction l with
  | nil => simp [List.intercalate, sepConcat]
  | cons x t ih =>
    cases t with
    | nil => simp [List.intercalate, List.intersperse, sepConcat]
    | cons y t2 =>
      simp only [sepConcat, ← ih]
      simp [List.intercalate, List.intersperse]

theorem serArray_eq (elems : List (List Nat)) :
    serArray elems = 91 :: (sepConcat elems ++ [93]) := by
  simp [serArray, intercalate_eq_sepConcat]

/-- Items of a JSON array of strings, after the opening bracket. -/
def parseStrItems : Nat → List Nat → Option (List (List Nat) × List Nat)
  | 0, _ => none
  | fuel + 1, l =>
    match parseStr fuel l with
    | none => none
    | some (s, rest) =>
      match rest with
      | [] => none
      | c :: rest2 =>
        if c = 44 then (parseStrItems fuel rest2).map fun p => (s :: p.1, p.2)
        else if c = 93 then some ([s], rest2)
        else none

/-- A JSON array of strings. -/
def parseStrArr (fuel : Nat) (l : List Nat) :
    Option (List (List Nat) × List Nat) :=
  match l with
  | [] => none
  | b :: rest =>
    if b = 91 then
      match rest with
      | [] => none
      | c :: rest2 =>
        if c = 93 then some ([], rest2)
        else parseStrItems fuel (c :: rest2)
    else none

theorem parseStrItems_round :
    ∀ (ss : List (List Nat)) (rest : List Nat) (fuel : Nat), ss ≠ [] →
      (∀ s ∈ ss, s.length + ss.length < fuel) →
      parseStrItems fuel (sepConcat (ss.map serString) ++ 93 :: rest) =
        some (ss, rest) := by
  intro ss
  induction ss with
  | nil => intro rest fuel h; exact absurd rfl h
  | cons s ss ih =>
    intro rest fuel _ hb
    cases fuel with
    | zero =>
      have := hb s (List.mem_cons_self _ _)
      omega
    | succ f =>
      cases ss with
      | nil =>
        simp only [List.map_cons, List.map_nil, sepConcat, parseStrItems]
        rw [parseStr_round s (93 :: rest) f
          (by have := hb s (List.mem_cons_self _ _); simp at this; omega)]
        dsimp only
        rw [if_neg (by norm_num), if_pos rfl]
      | cons s2 t =>
        simp only [List.map_cons, sepConcat, List.append_assoc,
          List.cons_append, parseStrItems]
        rw [parseStr_round s _ f
          (by have := hb s (List.mem_cons_self _ _); simp at this; omega)]
        dsimp only
        rw [if_pos rfl]
        have hrec := ih rest f (by simp)
          (by
            intro x hx
            have := hb x (List.mem_cons_of_mem _ hx)
            simp only [List.length_cons] at this ⊢
            omega)
        simp only [List.map_cons, sepConcat] at hrec
        rw [hrec]
        rfl

theorem parseStrArr_round (ss : List (List Nat)) (rest : List Nat)
    (fuel : Nat) (h : ∀ s ∈ ss, s.length + ss.length < fuel) :
    parseStrArr fuel (serArray (ss.map serString) ++ rest) =
      some (ss, rest) := by
  rw [serArray_eq]
  cases ss with
  | nil =>
    simp [sepConcat, parseStrArr]
  | cons s ss =>
    obtain ⟨X, hX⟩ : ∃ X, sepConcat ((s :: ss).map serString) = 34 :: X := by
      cases ss with
      | nil => exact ⟨(s.map escapeByte).flatten ++ [34], by
          simp [sepConcat, serString]⟩
      | cons s2 t => exact ⟨(s.map escapeByte).flatten ++ [34] ++
          44 :: sepConcat ((s2 :: t).map serString), by
          simp [sepConcat, serString]⟩
    rw [hX]
    simp only [List.cons_append, List.append_assoc, parseStrArr,
      if_pos rfl]
    have := parseStrItems_round (s :: ss) rest fuel (by simp) h
    rw [hX] at this
    simpa using this


/-- Items of the tag array, after the opening bracket. -/
def parseTagItems : Nat → List Nat → Option (List Tag × List Nat)
  | 0, _ => none
  | fuel + 1, l =>
    match parseStrArr fuel l with
    | none => none
    | some (vs, rest) =>
      match rest with
      | [] => none
      | c :: rest2 =>
        if c = 44 then (parseTagItems fuel rest2).map fun p => (⟨vs⟩ :: p.1, p.2)
        else if c = 93 then some ([⟨vs⟩], rest2)
        else none

/-- The tag list as a JSON array of arrays of strings. -/
def parseTagsArr (fuel : Nat) (l : List Nat) :
    Option (List Tag × List Nat) :=
  match l with
  | [] => none
  | b :: rest =>
    if b = 91 then
      match rest with
      | [] => none
      | c :: rest2 =>
        if c = 93 then some ([], rest2)
        else parseTagItems fuel (c :: rest2)
    else none

theorem parseTagItems_round :
    ∀ (ts : List Tag) (rest : List Nat) (fuel : Nat), ts ≠ [] →
      ts.length < fuel →
      (∀ t ∈ ts, ∀ v ∈ t.values,
        v.length + t.values.length + ts.length < fuel) →
      parseTagItems fuel (sepConcat (ts.map serTag) ++ 93 :: rest) =
        some (ts, rest) := by
  intro ts
  induction ts with
  | nil => intro rest fuel h; exact absurd rfl h
  | cons t ts ih =>
    intro rest fuel _ hlen hb
    cases fuel with
    | zero => omega
    | succ f =>
      have hinner : ∀ v ∈ t.values, v.length + t.values.length < f := by
        intro v hv
        have := hb t (List.mem_cons_self _ _) v hv
        simp only [List.length_cons] at this
        omega
      cases ts with
      | nil =>
        simp only [List.map_cons, List.map_nil, sepConcat, serTag,
          parseTagItems]
        rw [parseStrArr_round t.values (93 :: rest) f hinner]
        dsimp only
        rw [if_neg (by norm_num), if_pos rfl]
      | cons t2 tt =>
        simp only [List.map_cons, sepConcat, serTag, List.append_assoc,
          List.cons_append, parseTagItems]
        rw [parseStrArr_round t.values _ f hinner]
        dsimp only
        rw [if_pos rfl]
        have hrec := ih rest f (by simp)
          (by simp only [List.length_cons] at hlen ⊢; omega)
          (by
            intro x hx v hv
            have := hb x (List.mem_cons_of_mem _ hx) v hv
            simp only [List.length_cons] at this ⊢
            omega)
        simp only [List.map_cons, sepConcat, serTag] at hrec
        rw [hrec]
        rfl

theorem parseTagsArr_round (ts : List Tag) (rest : List Nat) (fuel : Nat)
    (hlen : ts.length < fuel)
    (h : ∀ t ∈ ts, ∀ v ∈ t.values,
      v.length + t.values.length + ts.length < fuel) :
    parseTagsArr fuel (serTags ts ++ rest) = some (ts, rest) := by
  rw [serTags, serArray_eq]
  cases ts with
  | nil =>
    simp [sepConcat, parseTagsArr]
  | cons t tts =>
    obtain ⟨X, hX⟩ : ∃ X, sepConcat ((t :: tts).map serTag) = 91 :: X := by
      cases tts with
      | nil => exact ⟨sepConcat (t.values.map serString) ++ [93], by
          simp [sepConcat, serTag, serArray_eq]⟩
      | cons t2 tt => exact ⟨sepConcat (t.values.map serString) ++ [93] ++
          44 :: sepConcat ((t2 :: tt).map serTag), by
          simp [sepConcat, serTag, serArray_eq]⟩
    rw [hX]
    simp only [List.cons_append, List.append_assoc, parseTagsArr,
      if_pos rfl]
    have := parseTagItems_round (t :: tts) rest fuel (by simp) hlen h
    rw [hX] at this
    simpa using this


/-- Expect one byte and consume it. -/
def expectByte (b : Nat) (l : List Nat) : Option (List Nat) :=
  match l with
  | [] => none
  | c :: rest => if c = b then some rest else none

theorem expectByte_cons (b : Nat) (l : List Nat) :
    expectByte b (b :: l) = some l := by
  simp [expectByte]

/-- Parser for the canonical serialization
`[0,pubkey,created_at,kind,tags,content]`. -/
def parseCanonical (fuel : Nat) (l : List Nat) :
    Option (List Nat × Int × Int × List Tag × List Nat) :=
  (expectByte 91 l).bind fun r0 =>
  (expectByte 48 r0).bind fun r0a =>
  (expectByte 44 r0a).bind fun r1 =>
  (parseStr fuel r1).bind fun ppk =>
  (expectByte 44 ppk.2).bind fun r2 =>
  (parseInt r2).bind fun pca =>
  (expectByte 44 pca.2).bind fun r3 =>
  (parseInt r3).bind fun pki =>
  (expectByte 44 pki.2).bind fun r4 =>
  (parseTagsArr fuel r4).bind fun pts =>
  (expectByte 44 pts.2).bind fun r5 =>
  (parseStr fuel r5).bind fun pct =>
  (expectByte 93 pct.2).bind fun r6 =>
  if r6 = [] then some (ppk.1, pca.1, pki.1, pts.1, pct.1) else none

theorem parseCanonical_round (e : ProtoEvent) (fuel : Nat)
    (h1 : e.pubkey.length < fuel) (h2 : e.content.length < fuel)
    (h3 : e.tags.length < fuel)
    (h4 : ∀ t ∈ e.tags, ∀ v ∈ t.values,
      v.length + t.values.length + e.tags.length < fuel) :
    parseCanonical fuel (canonicalBytes e) =
      some (e.pubkey, e.created_at, e.kind, e.tags, e.content) := by
  simp only [canonicalBytes, List.append_assoc, List.cons_append,
    List.nil_append, parseCanonical]
  rw [expectByte_cons]
  simp only [Option.some_bind]
  rw [expectByte_cons]
  simp only [Option.some_bind]
  rw [expectByte_cons]
  simp only [Option.some_bind]
  rw [parseStr_round e.pubkey _ fuel h1]
  simp only [Option.some_bind]
  rw [expectByte_cons]
  simp only [Option.some_bind]
  rw [parseInt_round e.created_at 44 _ (by norm_num)]
  simp only [Option.some_bind]
  rw [expectByte_cons]
  simp only [Option.some_bind]
  rw [parseInt_round e.kind 44 _ (by norm_num)]
  simp only [Option.some_bind]
  rw [expectByte_cons]
  simp only [Option.some_bind]
  rw [parseTagsArr_round e.tags _ fuel h3 h4]
  simp only [Option.some_bind]
  rw [expectByte_cons]
  simp only [Option.some_bind]
  rw [parseStr_round e.content _ fuel h2]
  simp only [Option.some_bind]
  rw [expectByte_cons]
  simp only [Option.some_bind, if_true]

/-- The per-tag size contribution used to pick a fuel bound. -/
def tagWeight (t : Tag) : Nat :=
  t.values.length + (t.values.map List.length).sum

/-- A fuel bound large enough to parse `canonicalBytes e`. -/
def eventFuel (e : ProtoEvent) : Nat :=
  e.pubkey.length + e.content.length + e.tags.length +
    (e.tags.map tagWeight).sum + 1

theorem mem_le_map_sum (f : Tag → Nat) (l : List Tag) (a : Tag)
    (ha : a ∈ l) : f a ≤ (l.map f).sum :=
  List.single_le_sum (fun x _ => Nat.zero_le x) _ (List.mem_map_of_mem f ha)

theorem mem_le_map_sum_len (l : List (List Nat)) (a : List Nat)
    (ha : a ∈ l) : a.length ≤ (l.map List.length).sum :=
  List.single_le_sum (fun x _ => Nat.zero_le x) _
    (List.mem_map_of_mem List.length ha)

theorem parseCanonical_fuel (e : ProtoEvent) (fuel : Nat)
    (hf : eventFuel e ≤ fuel) :
    parseCanonical fuel (canonicalBytes e) =
      some (e.pubkey, e.created_at, e.kind, e.tags, e.content) := by
  apply parseCanonical_round
  · simp only [eventFuel] at hf; omega
  · simp only [eventFuel] at hf; omega
  · simp only [eventFuel] at hf; omega
  · intro t ht v hv
    have h1 : tagWeight t ≤ (e.tags.map tagWeight).sum :=
      mem_le_map_sum tagWeight e.tags t ht
    have h2 : v.length ≤ (t.values.map List.length).sum :=
      mem_le_map_sum_len t.values v hv
    simp only [eventFuel] at hf
    simp only [tagWeight] at h1
    omega

/-- Two events with equal canonical serializations agree on every
hashed field. -/
theorem canonicalBytes_inj (e₁ e₂ : ProtoEvent)
    (h : canonicalBytes e₁ = canonicalBytes e₂) :
    e₁.pubkey = e₂.pubkey ∧ e₁.created_at = e₂.created_at ∧
      e₁.kind = e₂.kind ∧ e₁.tags = e₂.tags ∧
      e₁.content = e₂.content := by
  have r1 := parseCanonical_fuel e₁ (eventFuel e₁ + eventFuel e₂)
    (by omega)
  have r2 := parseCanonical_fuel e₂ (eventFuel e₁ + eventFuel e₂)
    (by omega)
  rw [h, r2] at r1
  simp only [Option.some.injEq, Prod.mk.injEq] at r1
  exact ⟨r1.1.symm, r1.2.1.symm, r1.2.2.1.symm, r1.2.2.2.1.symm,
    r1.2.2.2.2.symm⟩


/-! ### Digest shape and the pigeonhole bound -/

theorem sha256Round_length (st : List Nat) (wi ki : Nat) :
    (sha256Round st wi ki).length = st.length := by
  unfold sha256Round
  split
  · simp_all
  · rfl

theorem foldl_rounds_length (l : List (Nat × Nat)) (st : List Nat) :
    (l.foldl (fun s p => sha256Round s p.1 p.2) st).length = st.length := by
  induction l generalizing st with
  | nil => rfl
  | cons p l ih => simp [List.foldl_cons, ih, sha256Round_length]

theorem compressBlock_length (h block : List Nat) (hh : h.length = 8) :
    (compressBlock h block).length = 8 := by
  simp [compressBlock, List.length_zipWith, foldl_rounds_length, hh]

theorem foldl_compress_length (blocks : List (List Nat)) (h : List Nat)
    (hh : h.length = 8) :
    (blocks.foldl compressBlock h).length = 8 := by
  induction blocks generalizing h with
  | nil => simpa
  | cons b blocks ih =>
    simp only [List.foldl_cons]
    exact ih _ (compressBlock_length h b hh)

theorem flatten_wordBE_length (l : List Nat) :
    ((l.map wordBE).flatten).length = 4 * l.length := by
  induction l with
  | nil => rfl
  | cons w l ih =>
    simp only [List.map_cons, List.flatten_cons, List.length_append, ih,
      List.length_cons, wordBE, List.length_cons, List.length_nil]
    omega

/-- Every SHA-256 digest has exactly 32 bytes. -/
theorem sha256_length (msg : List Nat) : (sha256 msg).length = 32 := by
  unfold sha256
  rw [flatten_wordBE_length, foldl_compress_length]
  rfl

/-- Every SHA-256 digest byte is below 256. -/
theorem sha256_lt (msg : List Nat) : ∀ b ∈ sha256 msg, b < 256 := by
  unfold sha256
  intro b hb
  rcases List.mem_flatten.1 hb with ⟨lw, hlw, hbl⟩
  rcases List.mem_map.1 hlw with ⟨w, _, hw⟩
  subst hw
  simp only [wordBE, List.mem_cons, List.mem_singleton] at hbl
  rcases hbl with h | h | h | h | h <;>
    first
      | (subst h; exact Nat.mod_lt _ (by norm_num))
      | simp at h

/-- Little-endian base-256 value of a digest. -/
def hashToNat : List Nat → Nat
  | [] => 0
  | b :: rest => b + 256 * hashToNat rest

theorem hashToNat_lt :
    ∀ (l : List Nat), (∀ b ∈ l, b < 256) →
      hashToNat l < 256 ^ l.length := by
  intro l
  induction l with
  | nil => intro _; simp [hashToNat]
  | cons b l ih =>
    intro h
    have hb := h b (List.mem_cons_self _ _)
    have hl := ih fun x hx => h x (List.mem_cons_of_mem _ hx)
    simp only [hashToNat, List.length_cons, pow_succ]
    calc b + 256 * hashToNat l < 256 + 256 * hashToNat l := by omega
    _ ≤ 256 * 256 ^ l.length := by omega
    _ = 256 ^ l.length * 256 := by ring

theorem hashToNat_inj :
    ∀ (l1 l2 : List Nat), l1.length = l2.length →
      (∀ b ∈ l1, b < 256) → (∀ b ∈ l2, b < 256) →
      hashToNat l1 = hashToNat l2 → l1 = l2 := by
  intro l1
  induction l1 with
  | nil =>
    intro l2 hlen _ _ _
    cases l2 with
    | nil => rfl
    | cons b l2 => simp at hlen
  | cons b1 t1 ih =>
    intro l2 hlen h1 h2 heq
    cases l2 with
    | nil => simp at hlen
    | cons b2 t2 =>
      have hb1 := h1 b1 (List.mem_cons_self _ _)
      have hb2 := h2 b2 (List.mem_cons_self _ _)
      simp only [hashToNat] at heq
      have hb : b1 = b2 := by omega
      have ht : hashToNat t1 = hashToNat t2 := by omega
      have := ih t2 (by simpa using hlen)
        (fun x hx => h1 x (List.mem_cons_of_mem _ hx))
        (fun x hx => h2 x (List.mem_cons_of_mem _ hx)) ht
      rw [hb, this]

/-- A family of events that differ only in their content. -/
def eventWithContent (n : Nat) : ProtoEvent :=
  { ProtoEvent.default with content := List.replicate n 97 }


/-- Counterexample to the universal digest-change property of the
hashing claim: since digests live in a finite set (32 bytes, each
below 256) while contents are unbounded, some two events that agree
on pubkey, created_at, kind and tags but differ in content must share
a SHA-256 digest. -/
theorem C1_content_digest_counterexample :
    ∃ e₁ e₂ : ProtoEvent,
      e₁.pubkey = e₂.pubkey ∧ e₁.created_at = e₂.created_at ∧
      e₁.kind = e₂.kind ∧ e₁.tags = e₂.tags ∧
      e₁.content ≠ e₂.content ∧
      computeEventHash e₁ = computeEventHash e₂ := by
  have hg : ∀ n : Nat,
      hashToNat (computeEventHash (eventWithContent n)) < 256 ^ 32 := by
    intro n
    have h := hashToNat_lt (computeEventHash (eventWithContent n))
      (sha256_lt _)
    have hlen : (computeEventHash (eventWithContent n)).length = 32 :=
      sha256_length _
    rw [hlen] at h
    exact h
  obtain ⟨n₁, n₂, hne, heq⟩ :=
    Finite.exists_ne_map_eq_of_infinite
      (fun n : Nat =>
        (⟨hashToNat (computeEventHash (eventWithContent n)), hg n⟩ :
          Fin (256 ^ 32)))
  refine ⟨eventWithContent n₁, eventWithContent n₂, rfl, rfl, rfl, rfl,
    ?_, ?_⟩
  · intro hc
    apply hne
    have := congrArg List.length hc
    simpa [eventWithContent] using this
  · have hval : hashToNat (computeEventHash (eventWithContent n₁)) =
        hashToNat (computeEventHash (eventWithContent n₂)) := by
      simpa using congrArg Fin.val heq
    exact hashToNat_inj _ _
      (by rw [show ∀ e, computeEventHash e = sha256 (canonicalBytes e)
          from fun _ => rfl, sha256_length,
          show ∀ e, computeEventHash e = sha256 (canonicalBytes e)
          from fun _ => rfl, sha256_length])
      (sha256_lt _) (sha256_lt _) hval

/-- C1 (amended): `compute_event_hash` is SHA-256 of the compact JSON
serialization of the six-element array
`[0, pubkey, created_at, kind, tags, content]` (comma separated, no
extraneous whitespace, tags as nested string arrays); it is
deterministic — equal events yield identical digests; and the
canonical serialization is injective in the five hashed fields, so
changing content, tags (including order or a tag value), created_at,
kind or pubkey always changes the serialized preimage.  The original
universal digest-change property is refuted by
pigeonhole on the finite digest space. -/
theorem C1_hash_canonical (e e₁ e₂ : ProtoEvent) :
    computeEventHash e = sha256 (serArray [serInt 0, serString e.pubkey,
      serInt e.created_at, serInt e.kind, serTags e.tags,
      serString e.content]) ∧
    (e₁ = e₂ → computeEventHash e₁ = computeEventHash e₂) ∧
    (canonicalBytes e₁ = canonicalBytes e₂ →
      e₁.pubkey = e₂.pubkey ∧ e₁.created_at = e₂.created_at ∧
        e₁.kind = e₂.kind ∧ e₁.tags = e₂.tags ∧
        e₁.content = e₂.content) := by
  refine ⟨?_, fun h => by rw [h], canonicalBytes_inj e₁ e₂⟩
  have h0 : serInt 0 = [48] := by decide
  have : canonicalBytes e = serArray [serInt 0, serString e.pubkey,
      serInt e.created_at, serInt e.kind, serTags e.tags,
      serString e.content] := by
    rw [serArray_eq]
    simp [canonicalBytes, sepConcat, h0]
  rw [computeEventHash, this]

/-- Witness for C1: the amended theorem applied to a concrete event. -/
theorem C1_hash_canonical_witness :
    computeEventHash testEvent1 = computeEventHash testEvent1 ∧
      (testEvent1.pubkey = testEvent1.pubkey ∧
        testEvent1.created_at = testEvent1.created_at ∧
        testEvent1.kind = testEvent1.kind ∧
        testEvent1.tags = testEvent1.tags ∧
        testEvent1.content = testEvent1.content) :=
  ⟨(C1_hash_canonical testEvent1 testEvent1 testEvent1).2.1 rfl,
    (C1_hash_canonical testEvent1 testEvent1 testEvent1).2.2 rfl⟩

end ProtonBeam
